import Mathlib

/-!
# tri: a run-length-reducing interpreter for an eight-operator tape language

A shallow embedding of `tri.cxx`.

* `std::string` is a `List Char`: one list element per `char` of the string.
* `TriWord = uint16_t` is a `Nat` kept below `65536` by an explicit `% 65536`
  at every place where the C++ stores into a `TriWord`.
* `TriMap = std::map<TriWord, TriWord>` is a total function `Nat → Nat`; an
  absent key reads as `0`, which is what `operator[]` gives.
* `std::cout` is the list of bytes written so far, oldest first.
* An exception or an out-of-range iterator read is a `Fault`.
* The two `int` locals of `linear_scan` are unbounded integers: `n` never
  exceeds the number of slots of the vector and `skip` stays between zero and
  that number, both far inside the range of `int`.
* Loops that the C++ runs without a bound take a step budget here; a result
  `ok` means the loop ended within the budget, `no_fuel` that it did not.
-/

namespace Tri

/-! ## The program -/

/-- Ways in which a run of the C++ code fails to produce a value. -/
inductive Fault where
  /-- The exception `std::out_of_range` thrown by `vector::at`. -/
  | out_of_range
  /-- An iterator was dereferenced outside `[begin, end)`: undefined behaviour. -/
  | bad_read
  /-- The step budget of the model ran out before the loop ended. -/
  | no_fuel
  deriving DecidableEq, Repr

deriving instance DecidableEq for Except

/-- The modulus of `TriWord = uint16_t`. -/
def WORD : Nat := 65536

/-- The struct `Instr` of the source: `char op; TriWord arg;`. -/
structure Instr where
  op : Char
  arg : Nat
  deriving DecidableEq, Repr

/-- The function `parse`: one `Instr{ch, 1}` per character of the input. -/
def parse (input : List Char) : List Instr :=
  input.map (fun ch => Instr.mk ch 1)

/-- The test of line 111: the operator is one of the eight recognised ones. -/
def recognised (c : Char) : Bool :=
  c == '[' || c == ']' || c == '+' || c == '-' || c == '<' || c == '>' || c == '.' || c == ','

/-- One iteration of the loop of `reduce_rle`.  The vector `rle_program` is
held back to front, so that `rle_program.back()` is the head of the list. -/
def reduce_step (rle_program : List Instr) (inst : Instr) : List Instr :=
  match rle_program with
  | [] => []
  | top :: rest =>
    if inst.op = top.op ∧ inst.op ≠ '[' ∧ inst.op ≠ ']' then
      Instr.mk top.op ((top.arg + inst.arg) % WORD) :: rest
    else if recognised inst.op then
      Instr.mk inst.op inst.arg :: top :: rest
    else
      top :: rest

/-- The function `reduce_rle`.  `program.at(0)` throws on an empty vector;
otherwise the output is seeded with `Instr{program.at(0).op, 0}` and the loop
runs over every instruction of `program`. -/
def reduce_rle (program : List Instr) : Except Fault (List Instr) :=
  match program with
  | [] => .error .out_of_range
  | first :: _ => .ok (program.foldl reduce_step [Instr.mk first.op 0]).reverse

/-- Dereference of the iterator `begin + ptr`: a fault outside the vector. -/
def deref (v : List Instr) (ptr : Int) : Except Fault Instr :=
  if ptr < 0 then .error .bad_read
  else match v.get? ptr.toNat with
    | some i => .ok i
    | none => .error .bad_read

/-- The loop of `linear_scan`, one iteration per unit of fuel.  Iterators are
offsets from `begin`; `skip` and `n` are the two `int` locals. -/
def scan_loop (v : List Instr) (finish : Int) (target clobber : Char) (delta : Int) :
    Nat → Int → Int → Nat → Except Fault Nat
  | 0, ptr, _, n => if ptr = finish then .ok n else .error .no_fuel
  | fuel + 1, ptr, skip, n =>
    if ptr = finish then .ok n
    else
      match deref v ptr with
      | .error e => .error e
      | .ok cur =>
        if cur.op = target ∧ skip = 0 then .ok (n + 1)
        else
          let skip1 := if cur.op = target then skip - 1 else skip
          let skip2 := if cur.op = clobber then skip1 + 1 else skip1
          scan_loop v finish target clobber delta fuel (ptr + delta) skip2 (n + 1)

/-- The function `linear_scan`.  Every iteration that does not fault reads a
slot of the vector, and with a step of one no slot is read twice, so
`v.length + 1` iterations are all the loop can make. -/
def linear_scan (v : List Instr) (start finish : Int) (target clobber : Char) (delta : Int) :
    Except Fault Nat :=
  scan_loop v finish target clobber delta (v.length + 1) start 0 0

/-- The jump resolution loop of `eval` (lines 125 to 143), from `offset` on,
for `todo` more instructions.  The vector is updated in place. -/
def resolve_loop : Nat → Nat → List Instr → Except Fault (List Instr)
  | 0, _, v => .ok v
  | todo + 1, offset, v =>
    match v.get? offset with
    | none => .ok v
    | some instr =>
      if instr.op = '[' then
        match linear_scan v (1 + offset) v.length ']' '[' 1 with
        | .error e => .error e
        | .ok n => resolve_loop todo (offset + 1) (v.set offset (Instr.mk instr.op (n % WORD)))
      else if instr.op = ']' then
        match linear_scan v (-1 + offset) 0 '[' ']' (-1) with
        | .error e => .error e
        | .ok n => resolve_loop todo (offset + 1) (v.set offset (Instr.mk instr.op (n % WORD)))
      else
        resolve_loop todo (offset + 1) v

/-- Jump resolution over the whole vector. -/
def resolve (v : List Instr) : Except Fault (List Instr) :=
  resolve_loop v.length 0 v

/-- The state of the execution loop of `eval`. -/
structure Machine where
  tape : Nat → Nat
  data_ptr : Nat
  inst_ptr : Nat
  out : List Nat

/-- The state in which execution starts: empty tape, both pointers zero. -/
def Machine.fresh : Machine :=
  { tape := fun _ => 0, data_ptr := 0, inst_ptr := 0, out := [] }

/-- Assignment `tape[k] = x`. -/
def store (tape : Nat → Nat) (k x : Nat) : Nat → Nat :=
  fun a => if a = k then x else tape a

/-- The body of the execution loop for the instruction `instr` (lines 156 to 213). -/
def exec_instr (instr : Instr) (m : Machine) : Machine :=
  if instr.op = '+' then
    { m with tape := store m.tape m.data_ptr ((m.tape m.data_ptr + instr.arg) % WORD),
             inst_ptr := (m.inst_ptr + 1) % WORD }
  else if instr.op = '-' then
    { m with tape := store m.tape m.data_ptr ((m.tape m.data_ptr + WORD - instr.arg % WORD) % WORD),
             inst_ptr := (m.inst_ptr + 1) % WORD }
  else if instr.op = '>' then
    { m with data_ptr := (m.data_ptr + instr.arg) % WORD,
             inst_ptr := (m.inst_ptr + 1) % WORD }
  else if instr.op = '<' then
    { m with data_ptr := (m.data_ptr + WORD - instr.arg % WORD) % WORD,
             inst_ptr := (m.inst_ptr + 1) % WORD }
  else if instr.op = '.' then
    { m with out := m.out ++ List.replicate instr.arg (m.tape m.data_ptr % 256),
             inst_ptr := (m.inst_ptr + 1) % WORD }
  else if instr.op = '[' then
    if m.tape m.data_ptr = 0 then
      { m with inst_ptr := (m.inst_ptr + instr.arg) % WORD }
    else
      { m with inst_ptr := (m.inst_ptr + 1) % WORD }
  else if instr.op = ']' then
    if m.tape m.data_ptr ≠ 0 then
      { m with inst_ptr := (m.inst_ptr + WORD - instr.arg % WORD) % WORD }
    else
      { m with inst_ptr := (m.inst_ptr + 1) % WORD }
  else
    { m with inst_ptr := (m.inst_ptr + 1) % WORD }

/-- One turn of the execution loop: `none` when the guard
`inst_ptr < rle_program.size()` fails, else the state after the body. -/
def step (prog : List Instr) (m : Machine) : Option Machine :=
  match prog.get? m.inst_ptr with
  | none => none
  | some instr => some (exec_instr instr m)

/-- The execution loop, at most `fuel` turns. -/
def run (prog : List Instr) : Nat → Machine → Except Fault Machine
  | 0, m =>
    match step prog m with
    | none => .ok m
    | some _ => .error .no_fuel
  | fuel + 1, m =>
    match step prog m with
    | none => .ok m
    | some m1 => run prog fuel m1

/-- Jump resolution followed by execution on a fresh tape: the part of `eval`
after the two calls that build `rle_program`. -/
def exec_stream (fuel : Nat) (v : List Instr) : Except Fault Machine :=
  match resolve v with
  | .error e => .error e
  | .ok prog => run prog fuel Machine.fresh

/-- The function `eval`: parse, reduce, resolve jumps, execute. -/
def eval (fuel : Nat) (input : List Char) : Except Fault Machine :=
  match reduce_rle (parse input) with
  | .error e => .error e
  | .ok rle_program => exec_stream fuel rle_program

/-- The bytes `eval` wrote to standard output, when it returned. -/
def eval_out (fuel : Nat) (input : List Char) : Except Fault (List Nat) :=
  (eval fuel input).map Machine.out

/-- The reduced stream of a source, as operator and count pairs. -/
def reduced (input : List Char) : Except Fault (List Instr) :=
  reduce_rle (parse input)

/-! ## Definitions used to state and prove the properties -/

/-- What the loop of `reduce_rle` leaves in `rle_program` from its last
element `top` on, once it has read the instructions of the list: a merge
changes `top`, a push emits it, a dropped character leaves it alone. -/
def rle_from (top : Instr) : List Instr → List Instr
  | [] => [top]
  | inst :: l =>
    if inst.op = top.op ∧ inst.op ≠ '[' ∧ inst.op ≠ ']' then
      rle_from (Instr.mk top.op ((top.arg + inst.arg) % WORD)) l
    else if recognised inst.op then
      top :: rle_from (Instr.mk inst.op inst.arg) l
    else
      rle_from top l

/-- The source of `n` plus signs followed by the characters of `tail`. -/
def plus_then (n : Nat) (tail : List Char) : List Char :=
  List.replicate n '+' ++ tail

/-- The source of scenario 2 with `a` plus signs before the move and `b` after. -/
def two_cells (a b : Nat) : List Char :=
  plus_then a ('>' :: plus_then b ['.', '<', '.'])

/-- The source of scenario 4 with `n` plus signs before the loop. -/
def countdown_src (n : Nat) : List Char :=
  plus_then n ['[', '-', '.', ']']

/-- The resolved program of `countdown_src`, with `a` the count of the plus run. -/
def countdown_prog (a : Nat) : List Instr :=
  [Instr.mk '+' a, Instr.mk '[' 3, Instr.mk '-' 1, Instr.mk '.' 1, Instr.mk ']' 3]

/-- The loop of `linear_scan` over the operators it is going to visit, in the
order of the visit, with the same two locals `skip` and `n`. -/
def scan_list (target clobber : Char) : List Char → Int → Nat → Nat
  | [], _, n => n
  | c :: l, skip, n =>
    if c = target ∧ skip = 0 then n + 1
    else
      let skip1 := if c = target then skip - 1 else skip
      let skip2 := if c = clobber then skip1 + 1 else skip1
      scan_list target clobber l skip2 (n + 1)

/-- The instruction that jump resolution leaves at position `p` in place of
`i`, in a stream whose operators are `os`: a `[` scans the slots after it, a
`]` the slots before it down to slot 1, slot 0 being the end of that scan. -/
def jump_arg (os : List Char) (p : Nat) (i : Instr) : Instr :=
  if i.op = '[' then
    Instr.mk i.op (scan_list ']' '[' (os.drop (p + 1)) 0 0 % WORD)
  else if i.op = ']' then
    Instr.mk i.op (scan_list '[' ']' ((os.take p).drop 1).reverse 0 0 % WORD)
  else i

/-- The operators of a stream. -/
def ops (v : List Instr) : List Char := v.map Instr.op

/-- The nesting depth after reading the operators of the list from depth `d`:
`[` opens a level, `]` closes one, and `none` reports a `]` that closes nothing. -/
def walk : List Char → Nat → Option Nat
  | [], d => some d
  | c :: l, d =>
    if c = '[' then walk l (d + 1)
    else if c = ']' then (if d = 0 then none else walk l (d - 1))
    else walk l d

/-- Balanced brackets: every `]` closes an open `[` and no `[` is left open. -/
def balanced (s : List Char) : Bool := walk s 0 == some 0

/-- Ordinary nesting: the `[` at position `i` and the `]` at position `j` match
when the brackets strictly between them are balanced. -/
def matched (os : List Char) (i j : Nat) : Bool :=
  decide (i < j) && os.get? i == some '[' && os.get? j == some ']'
    && balanced ((os.take j).drop (i + 1))

/-- The source with every character outside the eight operators removed. -/
def strip_comments (s : List Char) : List Char := s.filter recognised

/-- The bracket characters of a list of operators, in order. -/
def brackets (os : List Char) : List Char := os.filter (fun c => c == '[' || c == ']')

/-- The bytes written by jump resolution and execution of a stream. -/
def stream_out (fuel : Nat) (v : List Instr) : Except Fault (List Nat) :=
  (exec_stream fuel v).map Machine.out

/-- The bytes written when the reducer is applied a second time, to the stream
it produced, before jump resolution and execution. -/
def eval_twice_out (fuel : Nat) (input : List Char) : Except Fault (List Nat) :=
  match reduce_rle (parse input) with
  | .error e => .error e
  | .ok once =>
    match reduce_rle once with
    | .error e => .error e
    | .ok twice => stream_out fuel twice

/-- Resolving and executing the unreduced unit sequence `parse input`
directly, one instruction of count one per character. -/
def eval_direct (fuel : Nat) (input : List Char) : Except Fault Machine :=
  exec_stream fuel (parse input)

/-- The bytes written by `eval_direct`, when it returned. -/
def eval_direct_out (fuel : Nat) (input : List Char) : Except Fault (List Nat) :=
  (eval_direct fuel input).map Machine.out

/-- Every instruction written out as `arg` unit instructions of its operator. -/
def expand : List Instr → List Instr
  | [] => []
  | i :: l => List.replicate i.arg (Instr.mk i.op 1) ++ expand l

/-- Exactly `k` turns of the execution loop, `none` if the loop ends earlier. -/
def nsteps (prog : List Instr) : Nat → Machine → Option Machine
  | 0, m => some m
  | k + 1, m =>
    match step prog m with
    | none => none
    | some m1 => nsteps prog k m1

/-- The machine `m` with its instruction pointer replaced. -/
def retarget (m : Machine) (ip : Nat) : Machine :=
  Machine.mk m.tape m.data_ptr ip m.out

/-- What the reducer emits when no count wraps: a recognised operator, a
count of at least one, and a count of exactly one on a bracket. -/
def plain (i : Instr) : Prop :=
  recognised i.op = true ∧ 1 ≤ i.arg ∧ ((i.op = '[' ∨ i.op = ']') → i.arg = 1)

/-- The reduced stream `R` and its unit expansion, each with its resolved form. -/
structure Linked (R PR PU : List Instr) : Prop where
  plainR : ∀ i ∈ R, plain i
  bal : walk (ops R) 0 = some 0
  head : ∀ i, R.get? 0 = some i → i.op ≠ '['
  len : (expand R).length < WORD
  hPR : ∀ p, PR.get? p = (R.get? p).map (jump_arg (ops R) p)
  hPU : ∀ p, PU.get? p = ((expand R).get? p).map (jump_arg (ops (expand R)) p)

/-- The two machines are at the same boundary of the source: the reduced one
after the instructions `a`, the unit one after their expansion, with the same
tape, data pointer and output. -/
def Sim (R : List Instr) (mR mU : Machine) : Prop :=
  ∃ a b, R = a ++ b ∧ mR.inst_ptr = a.length ∧ mU = retarget mR (expand a).length

/-- The characters written when each instruction is put down as `arg` copies
of its operator, in order. -/
def write_out : List Instr → List Char
  | [] => []
  | i :: l => List.replicate i.arg i.op ++ write_out l

/-- The number of copies of `c` at the front of the list. -/
def run_at (c : Char) : List Char → Nat
  | [] => 0
  | d :: l => if d = c then run_at c l + 1 else 0

/-- Every run of a repeated operator other than a bracket is shorter than
65536: checked at each position for the run that starts there. -/
def short_runs : List Char → Bool
  | [] => true
  | c :: l => (c == '[' || c == ']' || decide (run_at c l + 1 < WORD)) && short_runs l

/-- Neighbours in a stream carry different operators, brackets apart. -/
def run_ends (x y : Instr) : Prop := x.op = y.op → (x.op = '[' ∨ x.op = ']')

/-- The source of `n` opening brackets followed by `n` closing brackets. -/
def nested (n : Nat) : List Char := List.replicate n '[' ++ List.replicate n ']'

/-! ## The run-length reducer -/

theorem foldl_reduce_step (l : List Instr) (top : Instr) (rest : List Instr) :
    (l.foldl reduce_step (top :: rest)).reverse = rest.reverse ++ rle_from top l := by
  induction l generalizing top rest with
  | nil => simp [rle_from]
  | cons inst l ih =>
    simp only [List.foldl_cons, reduce_step, rle_from]
    split_ifs with h1 h2
    · exact ih _ _
    · rw [ih]; simp
    · exact ih _ _

theorem reduce_rle_cons (first : Instr) (l : List Instr) :
    reduce_rle (first :: l) = .ok (rle_from (Instr.mk first.op 0) (first :: l)) := by
  simp only [reduce_rle]
  rw [foldl_reduce_step]
  simp

theorem rle_from_run (c : Char) (hc1 : c ≠ '[') (hc2 : c ≠ ']') (n a : Nat) (l : List Instr) :
    rle_from (Instr.mk c (a % WORD)) (parse (List.replicate n c) ++ l)
      = rle_from (Instr.mk c ((a + n) % WORD)) l := by
  induction n generalizing a with
  | zero => simp [parse]
  | succ n ih =>
    have h : (a % WORD + 1) % WORD = (a + 1) % WORD := by
      simp [Nat.add_mod]
    simp only [List.replicate_succ, parse, List.map_cons, List.cons_append, rle_from,
      true_and, ne_eq, hc1, hc2, not_false_eq_true, and_self, if_true]
    rw [h]
    have := ih (a + 1)
    simp only [parse] at this
    have e : a + (n + 1) = a + 1 + n := by omega
    rw [e]
    exact this

theorem rle_from_plus (top : Instr) (htop : top.op ≠ '+') (n : Nat) (hn : 1 ≤ n)
    (tail : List Char) :
    rle_from top (parse (plus_then n tail))
      = top :: rle_from (Instr.mk '+' (n % WORD)) (parse tail) := by
  obtain ⟨k, rfl⟩ : ∃ k, n = k + 1 := ⟨n - 1, by omega⟩
  have h := rle_from_run '+' (by decide) (by decide) k 1 (parse tail)
  have e : (1 : Nat) % WORD = 1 := by decide
  rw [e] at h
  have hne : ¬ ('+' = top.op) := fun h => htop h.symm
  simp only [plus_then, List.replicate_succ, List.cons_append, parse, List.map_cons,
    List.map_append, rle_from, hne, false_and, if_false]
  simp only [parse] at h
  rw [Nat.add_comm k 1]
  simpa [recognised] using h

theorem reduced_plus_then (n : Nat) (hn : 1 ≤ n) (tail : List Char) :
    reduce_rle (parse (plus_then n tail))
      = .ok (rle_from (Instr.mk '+' (n % WORD)) (parse tail)) := by
  obtain ⟨k, rfl⟩ : ∃ k, n = k + 1 := ⟨n - 1, by omega⟩
  have h := rle_from_run '+' (by decide) (by decide) (k + 1) 0 (parse tail)
  simp only [plus_then, List.replicate_succ, List.cons_append, parse, List.map_cons,
    List.map_append] at h ⊢
  rw [reduce_rle_cons]
  simp only [Nat.zero_mod, Nat.zero_add] at h
  rw [h]

theorem rle_from_head (l : List Instr) :
    ∀ top : Instr, ∃ k t, rle_from top l = Instr.mk top.op k :: t := by
  induction l with
  | nil => intro top; exact ⟨top.arg, [], rfl⟩
  | cons inst l ih =>
    intro top
    simp only [rle_from]
    split_ifs
    · exact ih _
    · exact ⟨top.arg, _, rfl⟩
    · exact ih _

theorem recognised_bracket (c : Char) (h : c = '[' ∨ c = ']') : recognised c = true := by
  rcases h with h | h <;> subst h <;> rfl

theorem walk_cons_other (c : Char) (l : List Char) (d : Nat) (h1 : c ≠ '[') (h2 : c ≠ ']') :
    walk (c :: l) d = walk l d := by
  simp [walk, h1, h2]

theorem walk_cons_congr (x : Char) (a b : List Char) (h : ∀ d, walk a d = walk b d) (d : Nat) :
    walk (x :: a) d = walk (x :: b) d := by
  simp only [walk]
  split_ifs <;> first | rfl | exact h _

theorem walk_rle_from (l : List Char) :
    ∀ (top : Instr) (d : Nat),
      walk (ops (rle_from top (parse l))) d = walk (top.op :: l) d := by
  induction l with
  | nil => intro top d; rfl
  | cons c l ih =>
    intro top d
    have hp : parse (c :: l) = Instr.mk c 1 :: parse l := rfl
    rw [hp, rle_from]
    split_ifs with h1 h2
    · rw [ih]
      obtain ⟨e, n1, n2⟩ := h1
      simp only at e n1 n2
      rw [walk_cons_other top.op (c :: l) d (e ▸ n1) (e ▸ n2),
        walk_cons_other c l d n1 n2, walk_cons_other top.op l d (e ▸ n1) (e ▸ n2)]
    · exact walk_cons_congr top.op _ _ (fun d' => ih (Instr.mk c 1) d') d
    · rw [ih]
      have n1 : c ≠ '[' := fun h => h2 (recognised_bracket c (Or.inl h))
      have n2 : c ≠ ']' := fun h => h2 (recognised_bracket c (Or.inr h))
      exact walk_cons_congr top.op _ _ (fun d' => (walk_cons_other c l d' n1 n2).symm) d

/-! ## The scan of `linear_scan` as a walk over a list -/

theorem deref_nat (v : List Instr) (p : Nat) (h : p < v.length) :
    deref v (p : Int) = .ok (v.get ⟨p, h⟩) := by
  have h0 : ¬ ((p : Int) < 0) := by omega
  simp only [deref, h0, if_false, Int.toNat_ofNat]
  rw [List.get?_eq_get h]

theorem drop_ops (v : List Instr) (p : Nat) (h : p < v.length) :
    (ops v).drop p = (v.get ⟨p, h⟩).op :: (ops v).drop (p + 1) := by
  have hl : p < (ops v).length := by simpa [ops] using h
  rw [List.drop_eq_getElem_cons hl]
  simp [ops]

theorem drop_ops_length (v : List Instr) : (ops v).drop v.length = [] := by
  apply List.drop_eq_nil_of_le
  simp [ops]

theorem scan_forward (v : List Instr) (target clobber : Char) :
    ∀ (fuel p : Nat) (skip : Int) (n : Nat), p ≤ v.length → v.length - p ≤ fuel →
      scan_loop v v.length target clobber 1 fuel p skip n
        = .ok (scan_list target clobber ((ops v).drop p) skip n) := by
  intro fuel
  induction fuel with
  | zero =>
    intro p skip n hp hf
    have e : p = v.length := by omega
    subst e
    simp [scan_loop, drop_ops_length, scan_list]
  | succ fuel ih =>
    intro p skip n hp hf
    by_cases e : p = v.length
    · subst e
      simp [scan_loop, drop_ops_length, scan_list]
    · have hlt : p < v.length := by omega
      have hne : ¬ ((p : Int) = (v.length : Int)) := by omega
      rw [scan_loop, if_neg hne, deref_nat v p hlt, drop_ops v p hlt]
      simp only [scan_list]
      have hcast : (p : Int) + 1 = ((p + 1 : Nat) : Int) := by push_cast; ring
      rw [hcast]
      split_ifs <;> first | rfl | exact ih (p + 1) _ _ (by omega) (by omega)

theorem take_ops_succ (v : List Instr) (q : Nat) (h : q + 1 < v.length) :
    (((ops v).take (q + 1 + 1)).drop 1).reverse
      = (v.get ⟨q + 1, h⟩).op :: (((ops v).take (q + 1)).drop 1).reverse := by
  have hl : q + 1 < (ops v).length := by simpa [ops] using h
  rw [List.take_succ, List.getElem?_eq_getElem hl]
  have h1 : 1 ≤ ((ops v).take (q + 1)).length := by
    rw [List.length_take]; omega
  rw [Option.toList_some, List.drop_append_of_le_length h1, List.reverse_append]
  simp [ops]

theorem take_ops_one (v : List Instr) : (((ops v).take (0 + 1)).drop 1).reverse = [] := by
  cases v <;> simp [ops]

theorem scan_backward (v : List Instr) (target clobber : Char) :
    ∀ (fuel p : Nat) (skip : Int) (n : Nat), p < v.length → p ≤ fuel →
      scan_loop v 0 target clobber (-1) fuel p skip n
        = .ok (scan_list target clobber (((ops v).take (p + 1)).drop 1).reverse skip n) := by
  intro fuel
  induction fuel with
  | zero =>
    intro p skip n hp hf
    have e : p = 0 := by omega
    subst e
    rw [take_ops_one]
    simp [scan_loop, scan_list]
  | succ fuel ih =>
    intro p skip n hp hf
    cases p with
    | zero =>
      rw [take_ops_one]
      simp [scan_loop, scan_list]
    | succ q =>
      have hne : ¬ (((q + 1 : Nat) : Int) = 0) := by omega
      rw [scan_loop, if_neg hne, deref_nat v (q + 1) hp, take_ops_succ v q hp]
      simp only [scan_list]
      have hcast : ((q + 1 : Nat) : Int) + -1 = (q : Int) := by push_cast; ring
      rw [hcast]
      split_ifs <;> first | rfl | exact ih q _ _ (by omega) (by omega)

theorem linear_scan_forward (v : List Instr) (offset : Nat) (h : offset < v.length) :
    linear_scan v (1 + offset) v.length ']' '[' 1
      = .ok (scan_list ']' '[' ((ops v).drop (offset + 1)) 0 0) := by
  have hcast : (1 : Int) + (offset : Int) = ((offset + 1 : Nat) : Int) := by push_cast; ring
  rw [linear_scan, hcast]
  exact scan_forward v ']' '[' (v.length + 1) (offset + 1) 0 0 (by omega) (by omega)

theorem linear_scan_backward (v : List Instr) (q : Nat) (h : q + 1 < v.length) :
    linear_scan v (-1 + ((q + 1 : Nat) : Int)) 0 '[' ']' (-1)
      = .ok (scan_list '[' ']' (((ops v).take (q + 1)).drop 1).reverse 0 0) := by
  have hcast : (-1 : Int) + ((q + 1 : Nat) : Int) = (q : Int) := by push_cast; ring
  rw [linear_scan, hcast]
  exact scan_backward v '[' ']' (v.length + 1) q 0 0 (by omega) (by omega)

theorem linear_scan_before_begin (v : List Instr) :
    linear_scan v (-1 + ((0 : Nat) : Int)) 0 '[' ']' (-1) = .error .bad_read := by
  simp [linear_scan, scan_loop, deref]

/-! ## Jump resolution, position by position -/

theorem ops_set (v : List Instr) (k : Nat) (i : Instr) (a : Nat) (h : v.get? k = some i) :
    ops (v.set k (Instr.mk i.op a)) = ops v := by
  apply List.ext_get?
  intro p
  simp only [ops, List.get?_eq_getElem?, List.getElem?_map, List.getElem?_set] at h ⊢
  by_cases e : k = p
  · subst e
    simp only [if_true]
    have hk : k < v.length := by
      by_contra hc
      rw [List.getElem?_eq_none (by omega)] at h
      cases h
    simp [hk, h]
  · simp [e]

theorem jump_arg_open (os : List Char) (p : Nat) (i : Instr) (h : i.op = '[') :
    jump_arg os p i = Instr.mk i.op (scan_list ']' '[' (os.drop (p + 1)) 0 0 % WORD) := by
  simp [jump_arg, h]

theorem jump_arg_close (os : List Char) (p : Nat) (i : Instr) (h : i.op = ']') :
    jump_arg os p i
      = Instr.mk i.op (scan_list '[' ']' ((os.take p).drop 1).reverse 0 0 % WORD) := by
  simp [jump_arg, h]

theorem jump_arg_other (os : List Char) (p : Nat) (i : Instr) (h1 : i.op ≠ '[')
    (h2 : i.op ≠ ']') : jump_arg os p i = i := by
  simp [jump_arg, h1, h2]

theorem resolve_loop_set (todo offset : Nat) (v r : List Instr) (instr : Instr) (a : Nat)
    (hget : v.get? offset = some instr)
    (ha : jump_arg (ops v) offset instr = Instr.mk instr.op a)
    (hr : ops r = ops (v.set offset (Instr.mk instr.op a)) ∧ ∀ p, r.get? p
      = ((v.set offset (Instr.mk instr.op a)).get? p).map (fun i =>
          if offset + 1 ≤ p ∧ p < offset + 1 + todo
          then jump_arg (ops (v.set offset (Instr.mk instr.op a))) p i else i)) :
    ops r = ops v ∧ ∀ p, r.get? p = (v.get? p).map (fun i =>
      if offset ≤ p ∧ p < offset + (todo + 1) then jump_arg (ops v) p i else i) := by
  have ho := ops_set v offset instr a hget
  rw [ho] at hr
  refine ⟨hr.1, ?_⟩
  intro p
  rw [hr.2 p]
  by_cases e : offset = p
  · subst e
    have hk : offset < v.length := by
      by_contra hc
      rw [List.get?_eq_none.2 (by omega)] at hget
      cases hget
    have c1 : ¬ (offset + 1 ≤ offset ∧ offset < offset + 1 + todo) := by omega
    have c2 : offset ≤ offset ∧ offset < offset + (todo + 1) := by omega
    simp only [List.get?_eq_getElem?, List.getElem?_set_self hk] at hget ⊢
    rw [hget]
    simp only [Option.map_some', if_neg c1, if_pos c2, ha]
  · have c : (offset + 1 ≤ p ∧ p < offset + 1 + todo) ↔ (offset ≤ p ∧ p < offset + (todo + 1)) := by
      omega
    simp only [List.get?_eq_getElem?, List.getElem?_set_ne e, c]

theorem resolve_loop_spec :
    ∀ (todo offset : Nat) (v : List Instr),
      (offset = 0 → ∀ i, v.get? 0 = some i → i.op ≠ ']') →
      ∃ r, resolve_loop todo offset v = .ok r ∧ ops r = ops v ∧
        ∀ p, r.get? p = (v.get? p).map (fun i =>
          if offset ≤ p ∧ p < offset + todo then jump_arg (ops v) p i else i) := by
  intro todo
  induction todo with
  | zero =>
    intro offset v _
    refine ⟨v, rfl, rfl, ?_⟩
    intro p
    have c : ¬ (offset ≤ p ∧ p < offset + 0) := by omega
    rw [show (fun i : Instr => if offset ≤ p ∧ p < offset + 0 then jump_arg (ops v) p i else i)
      = id from funext (fun i => if_neg c)]
    simp
  | succ todo ih =>
    intro offset v h0
    cases hget : v.get? offset with
    | none =>
      refine ⟨v, by simp only [resolve_loop, hget], rfl, ?_⟩
      intro p
      by_cases c : offset ≤ p ∧ p < offset + (todo + 1)
      · have hlen : v.length ≤ offset := List.get?_eq_none.1 hget
        rw [List.get?_eq_none.2 (by omega)]
        rfl
      · rw [show (fun i : Instr => if offset ≤ p ∧ p < offset + (todo + 1)
            then jump_arg (ops v) p i else i) = id from funext (fun i => if_neg c)]
        simp
    | some instr =>
      have hk : offset < v.length := by
        by_contra hc
        rw [List.get?_eq_none.2 (by omega)] at hget
        cases hget
      by_cases ho : instr.op = '['
      · have hs := linear_scan_forward v offset hk
        obtain ⟨r, hr1, hr2⟩ := ih (offset + 1)
          (v.set offset (Instr.mk instr.op
            (scan_list ']' '[' ((ops v).drop (offset + 1)) 0 0 % WORD))) (by omega)
        refine ⟨r, ?_, resolve_loop_set todo offset v r instr _ hget
          (jump_arg_open _ _ _ ho) hr2⟩
        simp only [resolve_loop, hget, ho, if_true, hs]
        simpa [ho] using hr1
      · by_cases hc : instr.op = ']'
        · cases offset with
          | zero => exact absurd hc (h0 rfl instr hget)
          | succ q =>
            have hs := linear_scan_backward v q hk
            obtain ⟨r, hr1, hr2⟩ := ih (q + 1 + 1)
              (v.set (q + 1) (Instr.mk instr.op
                (scan_list '[' ']' (((ops v).take (q + 1)).drop 1).reverse 0 0 % WORD)))
              (by omega)
            refine ⟨r, ?_, resolve_loop_set todo (q + 1) v r instr _ hget
              (jump_arg_close _ _ _ hc) hr2⟩
            simp only [resolve_loop, hget, ho, if_false, hc, if_true, hs]
            simpa [hc] using hr1
        · obtain ⟨r, hr1, hr2, hr3⟩ := ih (offset + 1) v (by omega)
          refine ⟨r, ?_, hr2, ?_⟩
          · simp only [resolve_loop, hget, ho, hc, if_false]
            exact hr1
          · intro p
            rw [hr3 p]
            by_cases e : offset = p
            · subst e
              have c1 : ¬ (offset + 1 ≤ offset ∧ offset < offset + 1 + todo) := by omega
              have c2 : offset ≤ offset ∧ offset < offset + (todo + 1) := by omega
              rw [hget]
              simp only [Option.map_some', if_neg c1, if_pos c2, jump_arg_other _ _ _ ho hc]
            · have c : (offset + 1 ≤ p ∧ p < offset + 1 + todo)
                  ↔ (offset ≤ p ∧ p < offset + (todo + 1)) := by omega
              simp only [c]

theorem resolve_spec (v : List Instr) (h : ∀ i, v.get? 0 = some i → i.op ≠ ']') :
    ∃ r, resolve v = .ok r ∧ ops r = ops v ∧
      ∀ p, r.get? p = (v.get? p).map (jump_arg (ops v) p) := by
  obtain ⟨r, h1, h2, h3⟩ := resolve_loop_spec v.length 0 v (fun _ => h)
  refine ⟨r, h1, h2, ?_⟩
  intro p
  rw [h3 p]
  by_cases c : p < v.length
  · have c2 : 0 ≤ p ∧ p < 0 + v.length := by omega
    rw [show (fun i : Instr => if 0 ≤ p ∧ p < 0 + v.length then jump_arg (ops v) p i else i)
      = jump_arg (ops v) p from funext (fun i => if_pos c2)]
  · rw [List.get?_eq_none.2 (by omega)]
    rfl

theorem resolve_close_first (v : List Instr) (i : Instr) (h : v.get? 0 = some i)
    (hc : i.op = ']') : resolve v = .error .bad_read := by
  cases v with
  | nil => cases h
  | cons a l =>
    have hne : ¬ (i.op = '[') := by rw [hc]; decide
    have hs := linear_scan_before_begin (a :: l)
    simp only [resolve, List.length_cons, resolve_loop, h, hne, if_false, hc, if_true]
    rw [hs, if_neg (by decide)]

/-! ## Nesting depth and what the scans return -/

theorem walk_append (a b : List Char) (d : Nat) :
    walk (a ++ b) d = (walk a d).bind (walk b) := by
  induction a generalizing d with
  | nil => rfl
  | cons c a ih =>
    simp only [List.cons_append, walk]
    split_ifs <;> first | rfl | exact ih _

theorem scan_over_forward (body rest : List Char) :
    ∀ (d e s n : Nat), walk body d = some e →
      scan_list ']' '[' (body ++ rest) ((s + d : Nat) : Int) n
        = scan_list ']' '[' rest ((s + e : Nat) : Int) (n + body.length) := by
  induction body with
  | nil =>
    intro d e s n h
    simp only [walk, Option.some.injEq] at h
    subst h
    rfl
  | cons c body ih =>
    intro d e s n h
    simp only [walk] at h
    simp only [List.cons_append, scan_list, List.length_cons]
    by_cases h1 : c = '['
    · subst h1
      simp only [if_true] at h
      have := ih (d + 1) e s (n + 1) h
      have hn : (']' : Char) ≠ '[' := by decide
      simp only [show ¬ ('[' = ']') by decide, false_and, if_false, if_true]
      rw [show ((s + d : Nat) : Int) + 1 = ((s + (d + 1) : Nat) : Int) by push_cast; ring]
      rw [show n + 1 + body.length = n + (body.length + 1) by omega] at this
      exact this
    · by_cases h2 : c = ']'
      · subst h2
        simp only [show ¬ (']' = '[') by decide, if_false, if_true] at h
        by_cases hd : d = 0
        · simp [hd] at h
        · simp only [hd, if_false] at h
          have := ih (d - 1) e s (n + 1) h
          have hz : ¬ (((s + d : Nat) : Int) = 0) := by omega
          simp only [true_and, hz, if_false, if_true, show ¬ (']' = '[') by decide]
          rw [show ((s + d : Nat) : Int) - 1 = ((s + (d - 1) : Nat) : Int) by omega]
          rw [show n + 1 + body.length = n + (body.length + 1) by omega] at this
          exact this
      · simp only [h1, h2, if_false] at h
        have := ih d e s (n + 1) h
        simp only [h2, false_and, if_false, h1]
        rw [show n + 1 + body.length = n + (body.length + 1) by omega] at this
        exact this

theorem scan_over_backward (body : List Char) :
    ∀ (rest : List Char) (d e s n : Nat), walk body d = some e →
      scan_list '[' ']' (body.reverse ++ rest) ((s + e : Nat) : Int) n
        = scan_list '[' ']' rest ((s + d : Nat) : Int) (n + body.length) := by
  induction body with
  | nil =>
    intro rest d e s n h
    simp only [walk, Option.some.injEq] at h
    subst h
    rfl
  | cons c body ih =>
    intro rest d e s n h
    simp only [walk] at h
    simp only [List.reverse_cons, List.append_assoc, List.singleton_append, List.length_cons]
    by_cases h1 : c = '['
    · subst h1
      simp only [if_true] at h
      rw [ih ('[' :: rest) (d + 1) e s n h]
      have hz : ¬ (((s + (d + 1) : Nat) : Int) = 0) := by omega
      simp only [scan_list, true_and, hz, if_false, if_true, show ¬ ('[' = ']') by decide]
      rw [show ((s + (d + 1) : Nat) : Int) - 1 = ((s + d : Nat) : Int) by omega]
      congr 1
    · by_cases h2 : c = ']'
      · subst h2
        simp only [show ¬ (']' = '[') by decide, if_false, if_true] at h
        by_cases hd : d = 0
        · simp [hd] at h
        · simp only [hd, if_false] at h
          rw [ih (']' :: rest) (d - 1) e s n h]
          simp only [scan_list, show ¬ (']' = '[') by decide, false_and, if_false, if_true]
          rw [show ((s + (d - 1) : Nat) : Int) + 1 = ((s + d : Nat) : Int) by omega]
          congr 1
      · simp only [h1, h2, if_false] at h
        rw [ih (c :: rest) d e s n h]
        simp only [scan_list, h1, h2, false_and, if_false]
        congr 1

theorem scan_finds_close (body post : List Char) (hb : walk body 0 = some 0) :
    scan_list ']' '[' (body ++ ']' :: post) 0 0 = body.length + 1 := by
  have h := scan_over_forward body (']' :: post) 0 0 0 0 hb
  simp only [Nat.add_zero, Nat.cast_zero, Nat.zero_add] at h
  rw [h]
  simp [scan_list]

theorem scan_finds_open (body pre : List Char) (hb : walk body 0 = some 0) :
    scan_list '[' ']' (body.reverse ++ '[' :: pre) 0 0 = body.length + 1 := by
  have h := scan_over_backward body ('[' :: pre) 0 0 0 0 hb
  simp only [Nat.add_zero, Nat.cast_zero, Nat.zero_add] at h
  rw [h]
  simp [scan_list]

theorem jump_open (a b c : List Char) (i : Instr) (hi : i.op = '[')
    (hb : walk b 0 = some 0) :
    jump_arg (a ++ '[' :: (b ++ ']' :: c)) a.length i
      = Instr.mk i.op ((b.length + 1) % WORD) := by
  rw [jump_arg_open _ _ _ hi]
  have hd : (a ++ '[' :: (b ++ ']' :: c)).drop (a.length + 1) = b ++ ']' :: c := by
    rw [show a ++ '[' :: (b ++ ']' :: c) = (a ++ ['[']) ++ (b ++ ']' :: c) by simp]
    apply List.drop_left'
    simp
  rw [hd, scan_finds_close b c hb]

theorem jump_close (a0 : Char) (a b c : List Char) (i : Instr) (hi : i.op = ']')
    (hb : walk b 0 = some 0) :
    jump_arg (a0 :: a ++ '[' :: (b ++ ']' :: c)) (a.length + 1 + 1 + b.length) i
      = Instr.mk i.op ((b.length + 1) % WORD) := by
  rw [jump_arg_close _ _ _ hi]
  have ht : ((a0 :: a ++ '[' :: (b ++ ']' :: c)).take (a.length + 1 + 1 + b.length)).drop 1
      = a ++ '[' :: b := by
    rw [show a0 :: a ++ '[' :: (b ++ ']' :: c) = (a0 :: a ++ '[' :: b) ++ (']' :: c) by simp]
    rw [List.take_left']
    · simp
    · simp; omega
  rw [ht]
  have hr : (a ++ '[' :: b).reverse = b.reverse ++ '[' :: a.reverse := by simp
  rw [hr, scan_finds_open b a.reverse hb]

theorem split_two (os : List Char) (i j : Nat) (x y : Char) (hij : i < j)
    (hi : os.get? i = some x) (hj : os.get? j = some y) :
    os = os.take i ++ x :: ((os.take j).drop (i + 1) ++ y :: os.drop (j + 1)) := by
  have hjl : j < os.length := by
    by_contra hc
    rw [List.get?_eq_none.2 (by omega)] at hj
    cases hj
  rw [List.get?_eq_get hjl] at hj
  rw [List.get?_eq_get (by omega : i < os.length)] at hi
  simp only [List.get_eq_getElem, Option.some.injEq] at hi hj
  have h1 : os = os.take j ++ y :: os.drop (j + 1) := by
    rw [← hj, ← List.drop_eq_getElem_cons hjl, List.take_append_drop]
  have hil : i < (os.take j).length := by rw [List.length_take]; omega
  have h2 : os.take j = os.take i ++ x :: (os.take j).drop (i + 1) := by
    have e1 : (os.take j).take i = os.take i := by
      rw [List.take_take, Nat.min_eq_left (by omega)]
    have e2 : (os.take j)[i] = x := by
      rw [List.getElem_take]; exact hi
    rw [← e1, ← e2, ← List.drop_eq_getElem_cons hil, List.take_append_drop]
  calc os = os.take j ++ y :: os.drop (j + 1) := h1
    _ = (os.take i ++ x :: (os.take j).drop (i + 1)) ++ y :: os.drop (j + 1) := by rw [← h2]
    _ = _ := by simp

theorem matched_split (os : List Char) (i j : Nat) (h : matched os i j = true) :
    ∃ A B C, os = A ++ '[' :: (B ++ ']' :: C) ∧ A.length = i ∧ i + 1 + B.length = j
      ∧ walk B 0 = some 0 := by
  simp only [matched, balanced, Bool.and_eq_true, decide_eq_true_eq, beq_iff_eq] at h
  obtain ⟨⟨⟨hij, hi⟩, hj⟩, hb⟩ := h
  have hjl : j < os.length := by
    by_contra hc
    rw [List.get?_eq_none.2 (by omega)] at hj
    cases hj
  refine ⟨os.take i, (os.take j).drop (i + 1), os.drop (j + 1),
    split_two os i j '[' ']' hij hi hj, ?_, ?_, hb⟩
  · rw [List.length_take]; omega
  · rw [List.length_drop, List.length_take]; omega

theorem ops_get (v : List Instr) (p : Nat) (c : Char) (h : (ops v).get? p = some c) :
    ∃ x, v.get? p = some x ∧ x.op = c := by
  simp only [ops, List.get?_eq_getElem?, List.getElem?_map, Option.map_eq_some'] at h ⊢
  exact h

theorem get_append_mid (A : List Char) (x : Char) (T : List Char) :
    (A ++ x :: T).get? A.length = some x := by
  induction A with
  | nil => rfl
  | cons a A ih => simpa using ih

theorem walk_balanced_then_close (B C : List Char) (hb : walk B 0 = some 0) :
    walk (B ++ ']' :: C) 0 = none := by
  rw [walk_append, hb]
  rfl

theorem matched_jumps (s : List Char) (hs : s ≠ []) (hb : balanced s = true)
    (R : List Instr) (hR : reduce_rle (parse s) = .ok R) (hlen : R.length < 65536) :
    ∃ P, resolve R = .ok P ∧ ∀ i j, matched (ops R) i j = true →
      P.get? i = some (Instr.mk '[' (j - i)) ∧ P.get? j = some (Instr.mk ']' (j - i)) := by
  obtain ⟨c0, rest, rfl⟩ : ∃ c0 rest, s = c0 :: rest := by
    cases s with
    | nil => exact absurd rfl hs
    | cons c0 rest => exact ⟨c0, rest, rfl⟩
  have hw : walk (c0 :: rest) 0 = some 0 := by
    simpa [balanced] using hb
  have hc0 : c0 ≠ ']' := by
    intro h
    subst h
    simp [walk] at hw
  have hp : parse (c0 :: rest) = Instr.mk c0 1 :: parse rest := rfl
  rw [hp, reduce_rle_cons] at hR
  have hR' : R = rle_from (Instr.mk c0 0) (Instr.mk c0 1 :: parse rest) := by
    injection hR with h; exact h.symm
  obtain ⟨k, t, hkt⟩ := rle_from_head (Instr.mk c0 1 :: parse rest) (Instr.mk c0 0)
  have hRt : R = Instr.mk c0 k :: t := by rw [hR', hkt]
  have hhead : ∀ i, R.get? 0 = some i → i.op ≠ ']' := by
    intro i hi
    rw [hRt] at hi
    simp only [List.get?_cons_zero, Option.some.injEq] at hi
    rw [← hi]
    exact hc0
  obtain ⟨P, hP1, hP2, hP3⟩ := resolve_spec R hhead
  refine ⟨P, hP1, ?_⟩
  intro i j hm
  obtain ⟨A, B, C, hsplit, hA, hB, hwB⟩ := matched_split (ops R) i j hm
  have hjl : j < R.length := by
    have : (ops R).length = R.length := by simp [ops]
    rw [← this, hsplit]
    simp only [List.length_append, List.length_cons]
    omega
  have hmod : (B.length + 1) % WORD = j - i := by
    rw [Nat.mod_eq_of_lt (by simp only [WORD]; omega)]
    omega
  have hgi : (ops R).get? i = some '[' := by
    rw [hsplit, ← hA]; exact get_append_mid A '[' _
  have hgj : (ops R).get? j = some ']' := by
    have e : ops R = (A ++ '[' :: B) ++ ']' :: C := by rw [hsplit]; simp
    have l : (A ++ '[' :: B).length = j := by
      simp only [List.length_append, List.length_cons]; omega
    rw [e, ← l]; exact get_append_mid _ ']' _
  obtain ⟨x, hx1, hx2⟩ := ops_get R i '[' hgi
  obtain ⟨y, hy1, hy2⟩ := ops_get R j ']' hgj
  cases A with
  | nil =>
    exfalso
    simp only [List.length_nil] at hA
    subst hA
    rw [hRt] at hx1
    simp only [List.get?_cons_zero, Option.some.injEq] at hx1
    have hc : c0 = '[' := by rw [← hx2, ← hx1]
    subst hc
    have hunf : rle_from (Instr.mk '[' 0) (Instr.mk '[' 1 :: parse rest)
        = Instr.mk '[' 0 :: rle_from (Instr.mk '[' 1) (parse rest) := by
      simp [rle_from, recognised]
    rw [hunf] at hR'
    have hwt := walk_rle_from rest (Instr.mk '[' 1) 0
    rw [hw] at hwt
    rw [hR'] at hsplit
    simp only [ops, List.map_cons, List.nil_append, List.cons.injEq, true_and] at hsplit
    simp only [ops] at hwt
    rw [hsplit, walk_balanced_then_close B C hwB] at hwt
    cases hwt
  | cons a0 A =>
    constructor
    · subst hA
      rw [hP3, hx1, Option.map_some', hsplit, jump_open (a0 :: A) B C x hx2 hwB,
        hx2, hmod]
    · have hpos : j = A.length + 1 + 1 + B.length := by
        simp only [List.length_cons] at hA; omega
      rw [hP3 j, hy1, Option.map_some', hsplit]
      rw [show a0 :: A ++ '[' :: (B ++ ']' :: C) = a0 :: A ++ '[' :: (B ++ ']' :: C) from rfl]
      conv_lhs => rw [hpos]
      rw [jump_close a0 A B C y hy2 hwB, hy2, hmod]

/-- C2: for a non-empty source with balanced brackets whose reduced stream has
fewer than 65536 instructions, jump resolution succeeds, and for every `[` at
position `i` matched by ordinary nesting with the `]` at position `j` of the
reduced stream, the resolved `[` carries `j - i` and the resolved `]` carries
`j - i`. -/
theorem resolved_pairs (s : List Char) (hs : s ≠ []) (hb : balanced s = true)
    (R : List Instr) (hR : reduce_rle (parse s) = .ok R) (hlen : R.length < 65536) :
    ∃ P, resolve R = .ok P ∧ ∀ i j, matched (ops R) i j = true →
      P.get? i = some (Instr.mk '[' (j - i)) ∧ P.get? j = some (Instr.mk ']' (j - i)) :=
  matched_jumps s hs hb R hR hlen

theorem resolved_pairs_witness :
    "+[>[-]<-]".toList ≠ [] ∧ balanced "+[>[-]<-]".toList = true
      ∧ reduce_rle (parse "+[>[-]<-]".toList)
          = .ok [Instr.mk '+' 1, Instr.mk '[' 1, Instr.mk '>' 1, Instr.mk '[' 1, Instr.mk '-' 1,
              Instr.mk ']' 1, Instr.mk '<' 1, Instr.mk '-' 1, Instr.mk ']' 1]
      ∧ ∃ P, resolve [Instr.mk '+' 1, Instr.mk '[' 1, Instr.mk '>' 1, Instr.mk '[' 1,
              Instr.mk '-' 1, Instr.mk ']' 1, Instr.mk '<' 1, Instr.mk '-' 1, Instr.mk ']' 1]
            = .ok P
          ∧ ∀ i j, matched (ops [Instr.mk '+' 1, Instr.mk '[' 1, Instr.mk '>' 1, Instr.mk '[' 1,
              Instr.mk '-' 1, Instr.mk ']' 1, Instr.mk '<' 1, Instr.mk '-' 1, Instr.mk ']' 1])
              i j = true →
            P.get? i = some (Instr.mk '[' (j - i)) ∧ P.get? j = some (Instr.mk ']' (j - i)) :=
  ⟨by decide, by decide, by decide,
    resolved_pairs "+[>[-]<-]".toList (by decide) (by decide) _ (by decide) (by decide)⟩

/-! ## The execution loop, one instruction at a time -/

theorem exec_plus (k : Nat) (t : Nat → Nat) (dp ip : Nat) (o : List Nat) :
    exec_instr (Instr.mk '+' k) (Machine.mk t dp ip o)
      = Machine.mk (store t dp ((t dp + k) % WORD)) dp ((ip + 1) % WORD) o := rfl

theorem exec_minus (k : Nat) (t : Nat → Nat) (dp ip : Nat) (o : List Nat) :
    exec_instr (Instr.mk '-' k) (Machine.mk t dp ip o)
      = Machine.mk (store t dp ((t dp + WORD - k % WORD) % WORD)) dp ((ip + 1) % WORD) o := rfl

theorem exec_right (k : Nat) (t : Nat → Nat) (dp ip : Nat) (o : List Nat) :
    exec_instr (Instr.mk '>' k) (Machine.mk t dp ip o)
      = Machine.mk t ((dp + k) % WORD) ((ip + 1) % WORD) o := rfl

theorem exec_left (k : Nat) (t : Nat → Nat) (dp ip : Nat) (o : List Nat) :
    exec_instr (Instr.mk '<' k) (Machine.mk t dp ip o)
      = Machine.mk t ((dp + WORD - k % WORD) % WORD) ((ip + 1) % WORD) o := rfl

theorem exec_dot (k : Nat) (t : Nat → Nat) (dp ip : Nat) (o : List Nat) :
    exec_instr (Instr.mk '.' k) (Machine.mk t dp ip o)
      = Machine.mk t dp ((ip + 1) % WORD) (o ++ List.replicate k (t dp % 256)) := rfl

theorem exec_comma (k : Nat) (t : Nat → Nat) (dp ip : Nat) (o : List Nat) :
    exec_instr (Instr.mk ',' k) (Machine.mk t dp ip o)
      = Machine.mk t dp ((ip + 1) % WORD) o := rfl

theorem exec_open (k : Nat) (t : Nat → Nat) (dp ip : Nat) (o : List Nat) :
    exec_instr (Instr.mk '[' k) (Machine.mk t dp ip o)
      = Machine.mk t dp (if t dp = 0 then (ip + k) % WORD else (ip + 1) % WORD) o := by
  by_cases h : t dp = 0 <;> simp [exec_instr, h]

theorem exec_close (k : Nat) (t : Nat → Nat) (dp ip : Nat) (o : List Nat) :
    exec_instr (Instr.mk ']' k) (Machine.mk t dp ip o)
      = Machine.mk t dp
          (if t dp ≠ 0 then (ip + WORD - k % WORD) % WORD else (ip + 1) % WORD) o := by
  by_cases h : t dp = 0 <;> simp [exec_instr, h]

theorem run_step {prog : List Instr} {m m1 : Machine} (fuel : Nat)
    (h : step prog m = some m1) : run prog (fuel + 1) m = run prog fuel m1 := by
  simp [run, h]

theorem run_ok_unique (prog : List Instr) (f1 f2 : Nat) (m m1 m2 : Machine)
    (h1 : run prog f1 m = .ok m1) (h2 : run prog f2 m = .ok m2) : m1 = m2 := by
  induction f1 generalizing f2 m with
  | zero =>
    cases hs : step prog m with
    | none =>
      cases f2 <;> simp [run, hs] at h1 h2 <;> rw [← h1, ← h2]
    | some m3 => simp [run, hs] at h1
  | succ f1 ih =>
    cases hs : step prog m with
    | none =>
      cases f2 <;> simp [run, hs] at h1 h2 <;> rw [← h1, ← h2]
    | some m3 =>
      cases f2 with
      | zero => simp [run, hs] at h2
      | succ f2 =>
        simp only [run, hs] at h1 h2
        exact ih f2 m3 h1 h2

theorem exec_stream_ok_unique (v : List Instr) (f1 f2 : Nat) (m1 m2 : Machine)
    (h1 : exec_stream f1 v = .ok m1) (h2 : exec_stream f2 v = .ok m2) : m1 = m2 := by
  unfold exec_stream at h1 h2
  cases hr : resolve v with
  | error e => simp [hr] at h1
  | ok prog =>
    simp only [hr] at h1 h2
    exact run_ok_unique prog f1 f2 _ m1 m2 h1 h2

theorem eval_ok_unique (input : List Char) (f1 f2 : Nat) (m1 m2 : Machine)
    (h1 : eval f1 input = .ok m1) (h2 : eval f2 input = .ok m2) : m1 = m2 := by
  unfold eval at h1 h2
  cases hr : reduce_rle (parse input) with
  | error e => simp [hr] at h1
  | ok v =>
    simp only [hr] at h1 h2
    exact exec_stream_ok_unique v f1 f2 m1 m2 h1 h2

theorem eval_out_ok (input : List Char) (fuel : Nat) (o : List Nat) :
    eval_out fuel input = .ok o ↔ ∃ m, eval fuel input = .ok m ∧ m.out = o := by
  unfold eval_out
  cases eval fuel input with
  | error e => simp [Except.map]
  | ok m => simp [Except.map]

theorem eval_out_unique (input : List Char) (f1 f2 : Nat) (o1 o2 : List Nat)
    (h1 : eval_out f1 input = .ok o1) (h2 : eval_out f2 input = .ok o2) : o1 = o2 := by
  obtain ⟨m1, hm1, rfl⟩ := (eval_out_ok input f1 o1).1 h1
  obtain ⟨m2, hm2, rfl⟩ := (eval_out_ok input f2 o2).1 h2
  rw [eval_ok_unique input f1 f2 m1 m2 hm1 hm2]

theorem run_halt {prog : List Instr} {m : Machine} (fuel : Nat)
    (h : step prog m = none) : run prog fuel m = .ok m := by
  cases fuel <;> simp [run, h]

/-! ## Scenarios settled by running the machine -/

/-- C7: `reduce_rle` fails exactly on the empty sequence, with the exception
of `vector::at`, and `eval` of the empty source fails with that exception
whatever the step budget, so that execution never starts and nothing is
written. -/
theorem empty_input_rejected :
    (∀ program : List Instr, (∃ e, reduce_rle program = .error e) ↔ program = []) ∧
    reduce_rle (parse []) = .error .out_of_range ∧
    (∀ fuel, eval fuel [] = .error .out_of_range) := by
  refine ⟨?_, rfl, fun _ => rfl⟩
  intro program
  cases program with
  | nil => simp [reduce_rle]
  | cons i l => simp [reduce_rle_cons]

/-- C5: for every `n ≥ 1` the source of `n` plus signs and a dot halts within
two turns of the execution loop, leaves `n mod 65536` in cell 0 and writes the
single byte `n mod 256`. -/
theorem plus_run_then_dot (n : Nat) (hn : 1 ≤ n) :
    ∃ m, eval 2 (plus_then n ['.']) = .ok m ∧ m.tape 0 = n % 65536 ∧ m.out = [n % 256] := by
  have hr : eval 2 (plus_then n ['.'])
      = run [Instr.mk '+' (n % WORD), Instr.mk '.' 1] 2 Machine.fresh := by
    simp only [eval, reduced_plus_then n hn]
    rfl
  rw [hr]
  refine ⟨_, rfl, ?_, ?_⟩
  · simp [exec_instr, Machine.fresh, store, WORD]
  · have : n % 65536 % 256 = n % 256 := Nat.mod_mod_of_dvd n (by decide)
    simp [exec_instr, Machine.fresh, store, WORD, this]

theorem plus_run_then_dot_witness :
    1 ≤ 3 ∧ ∃ m, eval 2 "+++.".toList = .ok m ∧ m.tape 0 = 3 % 65536 ∧ m.out = [3 % 256] :=
  ⟨by decide, plus_run_then_dot 3 (by decide)⟩

theorem reduced_two_cells_tail (b : Nat) :
    rle_from (Instr.mk '>' 1) (parse (plus_then b ['.', '<', '.']))
      = if b = 0 then [Instr.mk '>' 1, Instr.mk '.' 1, Instr.mk '<' 1, Instr.mk '.' 1]
        else [Instr.mk '>' 1, Instr.mk '+' (b % WORD), Instr.mk '.' 1, Instr.mk '<' 1,
              Instr.mk '.' 1] := by
  by_cases hb : b = 0
  · subst hb; rfl
  · rw [rle_from_plus _ (by decide) b (by omega), if_neg hb]
    rfl

theorem reduced_two_cells (a b : Nat) :
    reduce_rle (parse (two_cells a b))
      = .ok ((if a = 0 then [] else [Instr.mk '+' (a % WORD)])
          ++ rle_from (Instr.mk '>' 1) (parse (plus_then b ['.', '<', '.']))) := by
  by_cases ha : a = 0
  · subst ha
    simp only [two_cells, plus_then, List.replicate_zero, List.nil_append, parse,
      List.map_cons, reduce_rle_cons, if_true]
    rfl
  · rw [two_cells, reduced_plus_then a (by omega), if_neg ha]
    rfl

/-- C6: for all `a` and `b` the source of `a` plus signs, a move right, `b`
plus signs and then `.<.` halts and writes exactly the two bytes `b mod 256`
and `a mod 256`, in that order. -/
theorem two_cells_output (a b : Nat) :
    ∃ fuel m, eval fuel (two_cells a b) = .ok m ∧ m.out = [b % 256, a % 256] := by
  have ha : a % 65536 % 256 = a % 256 := Nat.mod_mod_of_dvd a (by decide)
  have hb : b % 65536 % 256 = b % 256 := Nat.mod_mod_of_dvd b (by decide)
  refine ⟨6, ?_⟩
  simp only [eval, reduced_two_cells, reduced_two_cells_tail]
  by_cases h1 : a = 0 <;> by_cases h2 : b = 0
  · subst h1; subst h2
    refine ⟨_, rfl, ?_⟩
    simp only [Machine.fresh, exec_plus, exec_right, exec_dot, exec_left]
    simp [store, WORD]
  · subst h1
    simp only [if_true, if_neg h2, List.nil_append]
    refine ⟨_, rfl, ?_⟩
    simp only [Machine.fresh, exec_plus, exec_right, exec_dot, exec_left]
    simp [store, WORD, hb]
  · subst h2
    simp only [if_true, if_neg h1]
    refine ⟨_, rfl, ?_⟩
    simp only [Machine.fresh, exec_plus, exec_right, exec_dot, exec_left]
    simp [store, WORD, ha]
  · simp only [if_neg h1, if_neg h2]
    refine ⟨_, rfl, ?_⟩
    simp only [Machine.fresh, exec_plus, exec_right, exec_dot, exec_left]
    simp [store, WORD, ha, hb]

/-! ## The countdown loop of scenario 4 -/

theorem countdown_resolved (n : Nat) (hn : 1 ≤ n) (fuel : Nat) :
    eval fuel (countdown_src n) = run (countdown_prog (n % WORD)) fuel Machine.fresh := by
  simp only [eval, countdown_src, reduced_plus_then n hn]
  rfl

theorem countdown_iter (a : Nat) (t : Nat → Nat) (o : List Nat) (fuel : Nat) (h : t 0 ≠ 0) :
    run (countdown_prog a) (fuel + 4) (Machine.mk t 0 1 o)
      = run (countdown_prog a) fuel
          (Machine.mk (store t 0 ((t 0 + WORD - 1 % WORD) % WORD)) 0
            (if (t 0 + WORD - 1 % WORD) % WORD ≠ 0 then 1 else 5)
            (o ++ [(t 0 + WORD - 1 % WORD) % WORD % 256])) := by
  have h1 : step (countdown_prog a) (Machine.mk t 0 1 o) = some (Machine.mk t 0 2 o) := by
    simp [step, countdown_prog, exec_open, h, WORD]
  have h2 : step (countdown_prog a) (Machine.mk t 0 2 o)
      = some (Machine.mk (store t 0 ((t 0 + WORD - 1 % WORD) % WORD)) 0 3 o) := by
    simp [step, countdown_prog, exec_minus, WORD]
  have h3 : step (countdown_prog a)
        (Machine.mk (store t 0 ((t 0 + WORD - 1 % WORD) % WORD)) 0 3 o)
      = some (Machine.mk (store t 0 ((t 0 + WORD - 1 % WORD) % WORD)) 0 4
          (o ++ [(t 0 + WORD - 1 % WORD) % WORD % 256])) := by
    simp [step, countdown_prog, exec_dot, WORD, store]
  have h4 : step (countdown_prog a)
        (Machine.mk (store t 0 ((t 0 + WORD - 1 % WORD) % WORD)) 0 4
          (o ++ [(t 0 + WORD - 1 % WORD) % WORD % 256]))
      = some (Machine.mk (store t 0 ((t 0 + WORD - 1 % WORD) % WORD)) 0
            (if (t 0 + WORD - 1 % WORD) % WORD ≠ 0 then 1 else 5)
            (o ++ [(t 0 + WORD - 1 % WORD) % WORD % 256])) := by
    simp [step, countdown_prog, exec_close, WORD, store]
  rw [run_step (fuel + 3) h1, run_step (fuel + 2) h2, run_step (fuel + 1) h3, run_step fuel h4]

theorem countdown_loop (a k : Nat) (hk : k < 256) :
    ∀ (t : Nat → Nat) (o : List Nat), t 0 = k + 1 →
      ∃ m, run (countdown_prog a) (4 * (k + 1)) (Machine.mk t 0 1 o) = .ok m
        ∧ m.tape 0 = 0 ∧ m.out = o ++ (List.range (k + 1)).reverse := by
  induction k with
  | zero =>
    intro t o ht
    have e : 4 * (0 + 1) = 0 + 4 := by norm_num
    rw [e, countdown_iter a t o 0 (by omega)]
    have hv : (t 0 + WORD - 1 % WORD) % WORD = 0 := by rw [ht]; decide
    rw [hv]
    refine ⟨_, run_halt 0 (by simp [step, countdown_prog]), ?_, ?_⟩
    · simp [store]
    · rfl
  | succ k ih =>
    intro t o ht
    have e : 4 * (k + 1 + 1) = 4 * (k + 1) + 4 := by ring
    rw [e, countdown_iter a t o _ (by omega)]
    have hv : (t 0 + WORD - 1 % WORD) % WORD = k + 1 := by
      rw [ht]; simp only [WORD]; omega
    rw [hv]
    have hb : (k + 1) % 256 = k + 1 := Nat.mod_eq_of_lt hk
    obtain ⟨m, hm, hm0, hmo⟩ := ih (by omega) (store t 0 (k + 1)) (o ++ [(k + 1) % 256])
      (by simp [store])
    refine ⟨m, ?_, hm0, ?_⟩
    · simpa using hm
    · rw [hmo, hb, List.range_succ (n := k + 1)]
      simp

/-- C4, as the code has it: for `1 ≤ n ≤ 255` the source of `n` plus signs
followed by `[-.]` halts with cell 0 equal to 0, and because each turn of the
loop decrements before it writes, the bytes written are `n - 1, ..., 1, 0`. -/
theorem countdown_output (n : Nat) (h1 : 1 ≤ n) (h2 : n ≤ 255) :
    ∃ fuel m, eval fuel (countdown_src n) = .ok m ∧ m.tape 0 = 0
      ∧ m.out = (List.range n).reverse := by
  obtain ⟨k, rfl⟩ : ∃ k, n = k + 1 := ⟨n - 1, by omega⟩
  have hw : (k + 1) % WORD = k + 1 := Nat.mod_eq_of_lt (by simp only [WORD]; omega)
  have hs : step (countdown_prog (k + 1)) Machine.fresh
      = some (Machine.mk (store (fun _ => 0) 0 (k + 1)) 0 1 []) := by
    have hw2 : (0 + (k + 1)) % WORD = k + 1 := by rw [Nat.zero_add]; exact hw
    simp only [step, countdown_prog, Machine.fresh, List.get?_cons_zero, exec_plus, hw2]
    rfl
  obtain ⟨m, hm, hm0, hmo⟩ := countdown_loop (k + 1) k (by omega)
    (store (fun _ => 0) 0 (k + 1)) [] (by simp [store])
  refine ⟨4 * (k + 1) + 1, m, ?_, hm0, by simpa using hmo⟩
  rw [countdown_resolved _ h1, hw, run_step _ hs]
  exact hm

theorem countdown_output_witness :
    1 ≤ 3 ∧ 3 ≤ 255 ∧ ∃ fuel m, eval fuel "+++[-.]".toList = .ok m ∧ m.tape 0 = 0
      ∧ m.out = [2, 1, 0] :=
  ⟨by decide, by decide, countdown_output 3 (by decide) (by decide)⟩

/-- C4 fails as stated: `+++[-.]` writes the bytes 2, 1, 0 and not 3, 2, 1. -/
theorem countdown_not_from_n :
    eval_out 13 "+++[-.]".toList = .ok [2, 1, 0]
      ∧ ¬ ∃ fuel, eval_out fuel "+++[-.]".toList = .ok [3, 2, 1] := by
  have h : eval_out 13 "+++[-.]".toList = .ok [2, 1, 0] := by decide
  refine ⟨h, ?_⟩
  rintro ⟨fuel, hf⟩
  have := eval_out_unique _ _ _ _ _ h hf
  revert this
  decide

/-! ## What the unfiltered seed of `reduce_rle` does -/

/-- C8 at `hi+`: the seed `Instr{program.at(0).op, 0}` is pushed without the
test of line 111, the first `h` merges into it, and the reduced stream starts
with an instruction whose operator is `h`, outside the eight. -/
theorem seed_keeps_comment :
    reduced "hi+".toList = .ok [Instr.mk 'h' 1, Instr.mk '+' 1]
      ∧ recognised 'h' = false := by
  decide

/-- C9 at `[-]`: a bracket never merges, so the seed made from the first `[`
stays in the stream next to the instruction of that `[`: three bracket
instructions for the two bracket characters of the source. -/
theorem seed_adds_bracket :
    reduced "[-]".toList
        = .ok [Instr.mk '[' 0, Instr.mk '[' 1, Instr.mk '-' 1, Instr.mk ']' 1]
      ∧ brackets (ops [Instr.mk '[' 0, Instr.mk '[' 1, Instr.mk '-' 1, Instr.mk ']' 1])
          = ['[', '[', ']']
      ∧ brackets "[-]".toList = ['[', ']'] := by
  decide

/-- C3 at `h[]+.`: with the comment removed the source is `[]+.`, whose seed is
a `[` that jumps to the last instruction, and the two runs write different
bytes; the sources `+hi+.` and `++.` of scenario 5 both write the byte 2. -/
theorem comment_not_elided :
    strip_comments "h[]+.".toList = "[]+.".toList
      ∧ eval_out 8 "h[]+.".toList = .ok [1]
      ∧ eval_out 8 "[]+.".toList = .ok [0]
      ∧ strip_comments "+hi+.".toList = "++.".toList
      ∧ eval_out 8 "+hi+.".toList = .ok [2]
      ∧ eval_out 8 "++.".toList = .ok [2] := by
  decide

/-- C10 at `[]].+`: a second reduction pushes a second seed `[`, the scan of
the first instruction then ends one slot later, and the run that wrote the
byte 0 writes nothing. -/
theorem second_reduction_changes_output :
    eval_out 8 "[]].+".toList = .ok [0] ∧ eval_twice_out 8 "[]].+".toList = .ok [] := by
  decide

/-! ## Reduced and unit streams: the same bracket structure -/

theorem expand_append (a b : List Instr) : expand (a ++ b) = expand a ++ expand b := by
  induction a with
  | nil => rfl
  | cons i a ih => simp [expand, ih]

theorem expand_unit (c : Char) (l : List Instr) :
    expand (Instr.mk c 1 :: l) = Instr.mk c 1 :: expand l := by
  simp [expand]

theorem length_le_expand (l : List Instr) (h : ∀ i ∈ l, plain i) :
    l.length ≤ (expand l).length := by
  induction l with
  | nil => simp [expand]
  | cons i l ih =>
    have hi := (h i (List.mem_cons_self _ _)).2.1
    have := ih (fun j hj => h j (List.mem_cons_of_mem _ hj))
    simp only [expand, List.length_cons, List.length_append, List.length_replicate]
    omega

theorem walk_replicate_other (c : Char) (h1 : c ≠ '[') (h2 : c ≠ ']') (k : Nat)
    (l : List Char) (d : Nat) : walk (List.replicate k c ++ l) d = walk l d := by
  induction k with
  | zero => rfl
  | succ k ih =>
    rw [List.replicate_succ, List.cons_append, walk_cons_other c _ d h1 h2, ih]

theorem walk_expand (l : List Instr) (h : ∀ i ∈ l, plain i) :
    ∀ d, walk (ops (expand l)) d = walk (ops l) d := by
  induction l with
  | nil => intro d; rfl
  | cons i l ih =>
    intro d
    have hi := h i (List.mem_cons_self _ _)
    have ihl := ih (fun j hj => h j (List.mem_cons_of_mem _ hj))
    by_cases hb : i.op = '[' ∨ i.op = ']'
    · have ha : i.arg = 1 := hi.2.2 hb
      have e : expand (i :: l) = Instr.mk i.op 1 :: expand l := by
        simp [expand, ha]
      rw [e]
      exact walk_cons_congr i.op _ _ ihl d
    · have n1 : i.op ≠ '[' := fun h => hb (Or.inl h)
      have n2 : i.op ≠ ']' := fun h => hb (Or.inr h)
      have e : ops (expand (i :: l)) = List.replicate i.arg i.op ++ ops (expand l) := by
        simp [expand, ops]
      rw [e, walk_replicate_other i.op n1 n2, ihl]
      exact (walk_cons_other i.op (ops l) d n1 n2).symm

/-! ## Reduced stream against unit stream: the run of the reducer -/

theorem rle_from_expand (l : List Char) :
    ∀ top : Instr, (∀ c ∈ l, recognised c = true) → plain top → top.arg + l.length < WORD →
      expand (rle_from top (parse l)) = expand [top] ++ parse l
        ∧ ∀ i ∈ rle_from top (parse l), plain i := by
  induction l with
  | nil =>
    intro top _ ht _
    refine ⟨by simp [rle_from, parse], ?_⟩
    intro i hi
    simp only [parse, List.map_nil, rle_from, List.mem_singleton] at hi
    rw [hi]; exact ht
  | cons c l ih =>
    intro top hrec ht hlen
    have hc : recognised c = true := hrec c (List.mem_cons_self _ _)
    have hl : ∀ c ∈ l, recognised c = true := fun x hx => hrec x (List.mem_cons_of_mem _ hx)
    have hp : parse (c :: l) = Instr.mk c 1 :: parse l := rfl
    simp only [List.length_cons] at hlen
    rw [hp, rle_from]
    split_ifs with h1
    · obtain ⟨e, n1, n2⟩ := h1
      simp only at e n1 n2
      have hm : (top.arg + 1) % WORD = top.arg + 1 := Nat.mod_eq_of_lt (by omega)
      simp only [hm]
      have hpl : plain (Instr.mk top.op (top.arg + 1)) := by
        refine ⟨ht.1, by simp, ?_⟩
        intro hb
        simp only at hb
        rcases hb with hb | hb
        · exact absurd (e.trans hb) n1
        · exact absurd (e.trans hb) n2
      obtain ⟨h3, h4⟩ := ih (Instr.mk top.op (top.arg + 1)) hl hpl (by simp only; omega)
      refine ⟨?_, h4⟩
      rw [h3]
      simp only [expand, List.append_nil, List.replicate_succ', List.append_assoc,
        List.singleton_append, e]
    · obtain ⟨h3, h4⟩ := ih (Instr.mk c 1) hl
        ⟨hc, by simp, fun _ => rfl⟩ (by simp only; have := ht.2.1; omega)
      constructor
      · simp only [expand, List.append_nil] at h3 ⊢
        rw [h3]
        simp
      · intro i hi
        rcases List.mem_cons.1 hi with hi | hi
        · rw [hi]; exact ht
        · exact h4 i hi

theorem reduced_is_plain (c0 : Char) (rest : List Char) (hrec : ∀ c ∈ c0 :: rest, recognised c = true)
    (h1 : c0 ≠ '[') (h2 : c0 ≠ ']') (hlen : (c0 :: rest).length < WORD) :
    ∃ R, reduce_rle (parse (c0 :: rest)) = .ok R ∧ expand R = parse (c0 :: rest)
      ∧ (∀ i ∈ R, plain i) ∧ ∃ k t, R = Instr.mk c0 k :: t := by
  have hp : parse (c0 :: rest) = Instr.mk c0 1 :: parse rest := rfl
  have hunf : rle_from (Instr.mk c0 0) (Instr.mk c0 1 :: parse rest)
      = rle_from (Instr.mk c0 1) (parse rest) := by
    simp [rle_from, h1, h2, WORD]
  simp only [List.length_cons] at hlen
  obtain ⟨h3, h4⟩ := rle_from_expand rest (Instr.mk c0 1)
    (fun x hx => hrec x (List.mem_cons_of_mem _ hx))
    ⟨hrec c0 (List.mem_cons_self _ _), by simp, fun _ => rfl⟩ (by simp only; omega)
  refine ⟨rle_from (Instr.mk c0 1) (parse rest), ?_, ?_, h4, rle_from_head _ _⟩
  · rw [hp, reduce_rle_cons, hunf]
  · rw [h3, hp]
    simp [expand]

/-! ## Matching brackets exist in a balanced stream -/

theorem ops_cons (i : Instr) (l : List Instr) : ops (i :: l) = i.op :: ops l := rfl

theorem ops_append (a b : List Instr) : ops (a ++ b) = ops a ++ ops b := by
  simp [ops]

theorem close_exists (b : List Instr) :
    ∀ (k d e : Nat), walk (ops b) (d + 1 + k) = some e → e ≤ d →
      ∃ B y C, b = B ++ y :: C ∧ y.op = ']' ∧ walk (ops B) k = some 0 := by
  induction b with
  | nil =>
    intro k d e h he
    simp only [ops, List.map_nil, walk, Option.some.injEq] at h
    omega
  | cons i b ih =>
    intro k d e h he
    rw [ops_cons] at h
    simp only [walk] at h
    by_cases h1 : i.op = '['
    · simp only [h1, if_true] at h
      obtain ⟨B, y, C, hB, hy, hw⟩ := ih (k + 1) d e h he
      refine ⟨i :: B, y, C, by rw [hB]; rfl, hy, ?_⟩
      rw [ops_cons]
      simp only [walk, h1, if_true]
      exact hw
    · by_cases h2 : i.op = ']'
      · simp only [h1, h2, if_false, if_true] at h
        have hne : ¬ (d + 1 + k = 0) := by omega
        simp only [hne, if_false] at h
        cases k with
        | zero => exact ⟨[], i, b, rfl, h2, rfl⟩
        | succ k =>
          have e2 : d + 1 + (k + 1) - 1 = d + 1 + k := by omega
          rw [e2] at h
          obtain ⟨B, y, C, hB, hy, hw⟩ := ih k d e h he
          refine ⟨i :: B, y, C, by rw [hB]; rfl, hy, ?_⟩
          rw [ops_cons]
          simp only [walk, h1, h2, if_false, if_true]
          simpa using hw
      · simp only [h1, h2, if_false] at h
        obtain ⟨B, y, C, hB, hy, hw⟩ := ih k d e h he
        refine ⟨i :: B, y, C, by rw [hB]; rfl, hy, ?_⟩
        rw [ops_cons]
        simp only [walk, h1, h2, if_false]
        exact hw

theorem walk_snoc (a : List Char) (c : Char) (d : Nat) :
    walk (a ++ [c]) d = (walk a d).bind (fun x => walk [c] x) := walk_append a [c] d

theorem open_exists (a : List Instr) :
    ∀ (k d x : Nat), walk (ops a) d = some x → d + k + 1 ≤ x →
      ∃ A xi B, a = A ++ xi :: B ∧ xi.op = '[' ∧ walk (ops B) 0 = some k := by
  induction a using List.reverseRecOn with
  | nil =>
    intro k d x h hx
    simp only [ops, List.map_nil, walk, Option.some.injEq] at h
    omega
  | append_singleton a i ih =>
    intro k d x h hx
    rw [ops_append, walk_append] at h
    cases hw : walk (ops a) d with
    | none => rw [hw] at h; cases h
    | some z =>
      rw [hw] at h
      simp only [Option.some_bind, ops, List.map_cons, List.map_nil, walk] at h
      by_cases h1 : i.op = '['
      · simp only [h1, if_true, Option.some.injEq] at h
        cases k with
        | zero => exact ⟨a, i, [], rfl, h1, rfl⟩
        | succ k =>
          obtain ⟨A, xi, B, hA, hxi, hB⟩ := ih k d z hw (by omega)
          refine ⟨A, xi, B ++ [i], by rw [hA]; simp, hxi, ?_⟩
          rw [ops_append, walk_append, hB]
          simp [ops, walk, h1]
      · by_cases h2 : i.op = ']'
        · simp only [h1, h2, if_false, if_true] at h
          by_cases hz : z = 0
          · simp [hz] at h
          · simp only [hz, if_false, Option.some.injEq, show ¬ ((']' : Char) = '[') by decide]
              at h
            obtain ⟨A, xi, B, hA, hxi, hB⟩ := ih (k + 1) d z hw (by omega)
            refine ⟨A, xi, B ++ [i], by rw [hA]; simp, hxi, ?_⟩
            rw [ops_append, walk_append, hB]
            simp [ops, walk, h1, h2]
        · simp only [h1, h2, if_false, Option.some.injEq] at h
          obtain ⟨A, xi, B, hA, hxi, hB⟩ := ih k d z hw (by omega)
          refine ⟨A, xi, B ++ [i], by rw [hA]; simp, hxi, ?_⟩
          rw [ops_append, walk_append, hB]
          simp [ops, walk, h1, h2]

/-! ## Counting turns of the execution loop -/

theorem run_nsteps (prog : List Instr) :
    ∀ (k : Nat) (m m1 : Machine) (fuel : Nat), nsteps prog k m = some m1 →
      run prog (k + fuel) m = run prog fuel m1 := by
  intro k
  induction k with
  | zero =>
    intro m m1 fuel h
    simp only [nsteps, Option.some.injEq] at h
    rw [h, Nat.zero_add]
  | succ k ih =>
    intro m m1 fuel h
    simp only [nsteps] at h
    cases hs : step prog m with
    | none => rw [hs] at h; cases h
    | some m2 =>
      rw [hs] at h
      rw [show k + 1 + fuel = (k + fuel) + 1 by omega, run_step _ hs]
      exact ih m2 m1 fuel h

theorem run_after_nsteps (prog : List Instr) :
    ∀ (k : Nat) (m m1 mf : Machine) (fuel : Nat), nsteps prog k m = some m1 →
      run prog fuel m = .ok mf → k ≤ fuel ∧ run prog (fuel - k) m1 = .ok mf := by
  intro k
  induction k with
  | zero =>
    intro m m1 mf fuel h hr
    simp only [nsteps, Option.some.injEq] at h
    rw [← h]
    exact ⟨Nat.zero_le _, hr⟩
  | succ k ih =>
    intro m m1 mf fuel h hr
    simp only [nsteps] at h
    cases hs : step prog m with
    | none => rw [hs] at h; cases h
    | some m2 =>
      rw [hs] at h
      cases fuel with
      | zero => simp [run, hs] at hr
      | succ fuel =>
        rw [run_step _ hs] at hr
        obtain ⟨h1, h2⟩ := ih m2 m1 mf fuel h hr
        refine ⟨by omega, ?_⟩
        rw [show fuel + 1 - (k + 1) = fuel - k by omega]
        exact h2

theorem nsteps_succ (prog : List Instr) (k : Nat) (m m1 : Machine)
    (h : step prog m = some m1) : nsteps prog (k + 1) m = nsteps prog k m1 := by
  simp [nsteps, h]

/-! ## A run of one operator, executed one count at a time -/

theorem six_cases (c : Char) (hr : recognised c = true) (h1 : c ≠ '[') (h2 : c ≠ ']') :
    c = '+' ∨ c = '-' ∨ c = '<' ∨ c = '>' ∨ c = '.' ∨ c = ',' := by
  simp only [recognised, Bool.or_eq_true, beq_iff_eq] at hr
  tauto

theorem store_store (t : Nat → Nat) (k a b : Nat) : store (store t k a) k b = store t k b := by
  funext x
  simp only [store]
  split_ifs <;> rfl

theorem store_same (t : Nat → Nat) (k a : Nat) : store t k a k = a := by
  simp [store]

theorem add_mod_step (x k : Nat) : ((x + 1) % WORD + k) % WORD = (x + (k + 1)) % WORD := by
  unfold WORD; omega

theorem sub_mod_step (x k : Nat) :
    ((x + WORD - 1 % WORD) % WORD + WORD - k % WORD) % WORD
      = (x + WORD - (k + 1) % WORD) % WORD := by
  unfold WORD; omega

theorem exec_compose (c : Char) (hr : recognised c = true) (h1 : c ≠ '[') (h2 : c ≠ ']')
    (k : Nat) (t : Nat → Nat) (dp ip ip2 ip3 : Nat) (o : List Nat) :
    retarget (exec_instr (Instr.mk c k) (retarget (exec_instr (Instr.mk c 1)
        (Machine.mk t dp ip o)) ip2)) ip3
      = retarget (exec_instr (Instr.mk c (k + 1)) (Machine.mk t dp ip o)) ip3 := by
  rcases six_cases c hr h1 h2 with h | h | h | h | h | h <;> subst h
  · simp only [exec_plus, retarget, store_store, store_same, add_mod_step]
  · simp only [exec_minus, retarget, store_store, store_same, sub_mod_step]
  · simp only [exec_left, retarget, sub_mod_step]
  · simp only [exec_right, retarget, add_mod_step]
  · simp only [exec_dot, retarget]
    rw [List.append_assoc, ← List.replicate_add, Nat.add_comm]
  · simp only [exec_comma, retarget]

theorem exec_six_ip (c : Char) (hr : recognised c = true) (h1 : c ≠ '[') (h2 : c ≠ ']')
    (k : Nat) (t : Nat → Nat) (dp ip : Nat) (o : List Nat) :
    exec_instr (Instr.mk c k) (Machine.mk t dp ip o)
      = retarget (exec_instr (Instr.mk c k) (Machine.mk t dp ip o)) ((ip + 1) % WORD) := by
  rcases six_cases c hr h1 h2 with h | h | h | h | h | h <;> subst h <;> rfl

theorem unit_run (PU : List Instr) (c : Char) (hr : recognised c = true) (h1 : c ≠ '[')
    (h2 : c ≠ ']') :
    ∀ (k base : Nat) (t : Nat → Nat) (dp : Nat) (o : List Nat),
      (∀ j, j < k + 1 → PU.get? (base + j) = some (Instr.mk c 1)) → base + (k + 1) < WORD →
      nsteps PU (k + 1) (Machine.mk t dp base o)
        = some (retarget (exec_instr (Instr.mk c (k + 1)) (Machine.mk t dp base o))
            (base + (k + 1))) := by
  intro k
  induction k with
  | zero =>
    intro base t dp o hget hb
    have h0 := hget 0 (by omega)
    rw [Nat.add_zero] at h0
    have hs : step PU (Machine.mk t dp base o)
        = some (exec_instr (Instr.mk c 1) (Machine.mk t dp base o)) := by
      simp only [step, h0]
    rw [nsteps_succ PU 0 _ _ hs, exec_six_ip c hr h1 h2, Nat.mod_eq_of_lt (by omega)]
    rfl
  | succ k ih =>
    intro base t dp o hget hb
    have h0 := hget 0 (by omega)
    rw [Nat.add_zero] at h0
    have hs : step PU (Machine.mk t dp base o)
        = some (exec_instr (Instr.mk c 1) (Machine.mk t dp base o)) := by
      simp only [step, h0]
    rw [nsteps_succ PU (k + 1) _ _ hs, exec_six_ip c hr h1 h2 1, Nat.mod_eq_of_lt (by omega)]
    have hget' : ∀ j, j < k + 1 → PU.get? (base + 1 + j) = some (Instr.mk c 1) := by
      intro j hj
      rw [show base + 1 + j = base + (j + 1) by omega]
      exact hget (j + 1) (by omega)
    have hc := exec_compose c hr h1 h2 (k + 1) t dp base (base + 1) (base + 1 + (k + 1)) o
    rw [show base + 1 + (k + 1) = base + (k + 1 + 1) by omega] at hc
    rw [← hc]
    have hb' : base + 1 + (k + 1) < WORD := by omega
    have := ih (base + 1) (exec_instr (Instr.mk c 1) (Machine.mk t dp base o)).tape
      (exec_instr (Instr.mk c 1) (Machine.mk t dp base o)).data_ptr
      (exec_instr (Instr.mk c 1) (Machine.mk t dp base o)).out hget' hb'
    rw [show base + 1 + (k + 1) = base + (k + 1 + 1) by omega] at this
    exact this

theorem get_at_split (a : List Instr) (i : Instr) (b : List Instr) :
    (a ++ i :: b).get? a.length = some i := by
  induction a with
  | nil => rfl
  | cons x a ih => simpa using ih

theorem get_run_at_split (a : List Instr) (c : Char) (k : Nat) (b : List Instr) (j : Nat)
    (hj : j < k) :
    (a ++ (List.replicate k (Instr.mk c 1) ++ b)).get? (a.length + j) = some (Instr.mk c 1) := by
  induction a with
  | nil =>
    simp only [List.nil_append, List.length_nil, Nat.zero_add, List.get?_eq_getElem?]
    rw [List.getElem?_append_left (by simp; exact hj)]
    simp [hj]
  | cons x a ih =>
    simp only [List.cons_append, List.length_cons]
    rw [show a.length + 1 + j = (a.length + j) + 1 by omega, List.get?_cons_succ]
    exact ih

theorem exec_ip_indep (i : Instr) (t : Nat → Nat) (dp ip1 ip2 x : Nat) (o : List Nat) :
    retarget (exec_instr i (Machine.mk t dp ip1 o)) x
      = retarget (exec_instr i (Machine.mk t dp ip2 o)) x := by
  simp only [exec_instr, retarget]
  split_ifs <;> rfl

theorem plain_split (R a : List Instr) (i : Instr) (b : List Instr) (h : R = a ++ i :: b)
    (hp : ∀ x ∈ R, plain x) :
    plain i ∧ (∀ x ∈ a, plain x) ∧ (∀ x ∈ b, plain x) := by
  subst h
  refine ⟨hp i (by simp), fun x hx => hp x (by simp [hx]), fun x hx => hp x (by simp [hx])⟩

theorem expand_split_len (a : List Instr) (i : Instr) (b : List Instr) :
    (expand (a ++ i :: b)).length = (expand a).length + i.arg + (expand b).length := by
  simp [expand_append, expand]
  omega

theorem expand_snoc_len (a : List Instr) (i : Instr) :
    (expand (a ++ [i])).length = (expand a).length + i.arg := by
  simp [expand_append, expand]

theorem split_bounds {R PR PU : List Instr} (L : Linked R PR PU) (a : List Instr) (i : Instr)
    (b : List Instr) (hR : R = a ++ i :: b) :
    a.length + 1 < WORD ∧ (expand a).length + i.arg < WORD ∧ 1 ≤ i.arg := by
  have hp := plain_split R a i b hR L.plainR
  have h1 := length_le_expand a hp.2.1
  have h2 := expand_split_len a i b
  have h3 := L.len
  rw [hR] at h3
  have := hp.1.2.1
  omega

theorem sim_step_six {R PR PU : List Instr} (L : Linked R PR PU) (a : List Instr) (i : Instr)
    (b : List Instr) (hR : R = a ++ i :: b) (h1 : i.op ≠ '[') (h2 : i.op ≠ ']')
    (t : Nat → Nat) (dp : Nat) (o : List Nat) :
    step PR (Machine.mk t dp a.length o)
        = some (retarget (exec_instr i (Machine.mk t dp a.length o)) (a.length + 1))
      ∧ nsteps PU (i.arg - 1 + 1) (Machine.mk t dp (expand a).length o)
        = some (retarget (exec_instr i (Machine.mk t dp a.length o))
            ((expand a).length + i.arg)) := by
  obtain ⟨hb1, hb2, hb3⟩ := split_bounds L a i b hR
  have hp := (plain_split R a i b hR L.plainR).1
  constructor
  · have hg : PR.get? a.length = some i := by
      rw [L.hPR, hR, get_at_split, Option.map_some', jump_arg_other _ _ _ h1 h2]
    simp only [step, hg]
    have := exec_six_ip i.op hp.1 h1 h2 i.arg t dp a.length o
    rw [Nat.mod_eq_of_lt hb1] at this
    exact congrArg some this
  · have hg : ∀ j, j < i.arg - 1 + 1 →
        PU.get? ((expand a).length + j) = some (Instr.mk i.op 1) := by
      intro j hj
      have he : expand R = expand a ++ (List.replicate i.arg (Instr.mk i.op 1) ++ expand b) := by
        rw [hR, expand_append]; rfl
      rw [L.hPU, he, get_run_at_split _ _ _ _ _ (by omega), Option.map_some',
        jump_arg_other _ _ (Instr.mk i.op 1) h1 h2]
    have hu := unit_run PU i.op hp.1 h1 h2 (i.arg - 1) (expand a).length t dp o hg (by omega)
    rw [hu, show i.arg - 1 + 1 = i.arg by omega]
    exact congrArg some (exec_ip_indep i t dp _ _ _ o)

theorem step_open_at (P : List Instr) (ip k : Nat) (hg : P.get? ip = some (Instr.mk '[' k))
    (t : Nat → Nat) (dp : Nat) (o : List Nat) :
    step P (Machine.mk t dp ip o)
      = some (Machine.mk t dp (if t dp = 0 then (ip + k) % WORD else (ip + 1) % WORD) o) := by
  simp only [step, hg, exec_open]

theorem step_close_at (P : List Instr) (ip k : Nat) (hg : P.get? ip = some (Instr.mk ']' k))
    (t : Nat → Nat) (dp : Nat) (o : List Nat) :
    step P (Machine.mk t dp ip o)
      = some (Machine.mk t dp
          (if t dp ≠ 0 then (ip + WORD - k % WORD) % WORD else (ip + 1) % WORD) o) := by
  simp only [step, hg, exec_close]

theorem ops_length (v : List Instr) : (ops v).length = v.length := by simp [ops]

theorem expand_bracket (i : Instr) (l : List Instr) (ha : i.arg = 1) :
    expand (i :: l) = Instr.mk i.op 1 :: expand l := by
  simp [expand, ha]

theorem walk_split {R a : List Instr} {i : Instr} {b : List Instr} (hR : R = a ++ i :: b)
    (hbal : walk (ops R) 0 = some 0) :
    ∃ x, walk (ops a) 0 = some x ∧ walk (i.op :: ops b) x = some 0 := by
  rw [hR, ops_append, ops_cons, walk_append] at hbal
  cases hw : walk (ops a) 0 with
  | none => rw [hw] at hbal; cases hbal
  | some x =>
    rw [hw] at hbal
    exact ⟨x, rfl, hbal⟩

theorem sim_step_open {R PR PU : List Instr} (L : Linked R PR PU) (a : List Instr) (i : Instr)
    (b : List Instr) (hR : R = a ++ i :: b) (hi : i.op = '[')
    (t : Nat → Nat) (dp : Nat) (o : List Nat) :
    ∃ B y C, b = B ++ y :: C
      ∧ step PR (Machine.mk t dp a.length o)
        = some (Machine.mk t dp
            (if t dp = 0 then (a ++ i :: B).length else (a ++ [i]).length) o)
      ∧ step PU (Machine.mk t dp (expand a).length o)
        = some (Machine.mk t dp
            (if t dp = 0 then (expand (a ++ i :: B)).length
              else (expand (a ++ [i])).length) o) := by
  obtain ⟨x, hx, hwb⟩ := walk_split hR L.bal
  rw [hi] at hwb
  simp only [walk, if_true] at hwb
  obtain ⟨B, y, C, hb, hy, hwB⟩ := close_exists b 0 x 0 hwb (Nat.zero_le _)
  have hp := plain_split R a i b hR L.plainR
  have hia : i.arg = 1 := hp.1.2.2 (Or.inl hi)
  have hpy : plain y := hp.2.2 y (by rw [hb]; simp)
  have hya : y.arg = 1 := hpy.2.2 (Or.inr hy)
  have hpB : ∀ z ∈ B, plain z := fun z hz => hp.2.2 z (by rw [hb]; simp [hz])
  have hlenR : R.length ≤ (expand R).length := length_le_expand R L.plainR
  have hlen := L.len
  refine ⟨B, y, C, hb, ?_, ?_⟩
  · have hops : ops R = ops a ++ '[' :: (ops B ++ ']' :: ops C) := by
      rw [hR, hb]; simp [ops, hi, hy]
    have hg : PR.get? a.length = some (Instr.mk '[' ((B.length + 1) % WORD)) := by
      rw [L.hPR, hR, get_at_split, Option.map_some', ← hR, hops, ← ops_length a,
        jump_open (ops a) (ops B) (ops C) i hi hwB, hi, ops_length]
    rw [step_open_at PR _ _ hg]
    have hl : R.length = a.length + 1 + B.length + 1 + C.length := by
      rw [hR, hb]; simp; omega
    have e1 : (a.length + (B.length + 1) % WORD) % WORD = (a ++ i :: B).length := by
      rw [Nat.mod_eq_of_lt (show B.length + 1 < WORD by omega),
        Nat.mod_eq_of_lt (show a.length + (B.length + 1) < WORD by omega)]
      simp
    have e2 : (a.length + 1) % WORD = (a ++ [i]).length := by
      rw [Nat.mod_eq_of_lt (by omega)]; simp
    rw [e1, e2]
  · have hexp : expand R
        = expand a ++ Instr.mk '[' 1 :: (expand B ++ Instr.mk ']' 1 :: expand C) := by
      rw [hR, hb, expand_append, expand_bracket i _ hia, expand_append,
        expand_bracket y _ hya, hi, hy]
    have hops : ops (expand R)
        = ops (expand a) ++ '[' :: (ops (expand B) ++ ']' :: ops (expand C)) := by
      rw [hexp]; simp [ops]
    have hwB' : walk (ops (expand B)) 0 = some 0 := by
      rw [walk_expand B hpB]; exact hwB
    have hg : PU.get? (expand a).length
        = some (Instr.mk '[' (((expand B).length + 1) % WORD)) := by
      have hget : (expand R).get? (expand a).length = some (Instr.mk '[' 1) := by
        rw [hexp]; exact get_at_split _ _ _
      rw [L.hPU, hget, Option.map_some', hops, ← ops_length (expand a),
        jump_open (ops (expand a)) (ops (expand B)) (ops (expand C)) _ rfl hwB', ops_length]
    rw [step_open_at PU _ _ hg]
    have hl : (expand R).length
        = (expand a).length + 1 + (expand B).length + 1 + (expand C).length := by
      rw [hexp]; simp; omega
    have e1 : ((expand a).length + ((expand B).length + 1) % WORD) % WORD
        = (expand (a ++ i :: B)).length := by
      rw [Nat.mod_eq_of_lt (show (expand B).length + 1 < WORD by omega),
        Nat.mod_eq_of_lt (show (expand a).length + ((expand B).length + 1) < WORD by omega),
        expand_append, expand_bracket i _ hia]
      simp
    have e2 : ((expand a).length + 1) % WORD = (expand (a ++ [i])).length := by
      rw [Nat.mod_eq_of_lt (by omega), expand_snoc_len, hia]
    rw [e1, e2]

theorem back_jump (p q : Nat) (h : p + q < WORD) : (p + q + WORD - q % WORD) % WORD = p := by
  unfold WORD at *; omega

theorem sim_step_close {R PR PU : List Instr} (L : Linked R PR PU) (a : List Instr) (i : Instr)
    (b : List Instr) (hR : R = a ++ i :: b) (hi : i.op = ']')
    (t : Nat → Nat) (dp : Nat) (o : List Nat) :
    ∃ A x B, a = A ++ x :: B
      ∧ step PR (Machine.mk t dp a.length o)
        = some (Machine.mk t dp (if t dp ≠ 0 then A.length else (a ++ [i]).length) o)
      ∧ step PU (Machine.mk t dp (expand a).length o)
        = some (Machine.mk t dp
            (if t dp ≠ 0 then (expand A).length else (expand (a ++ [i])).length) o) := by
  obtain ⟨x, hx, hwb⟩ := walk_split hR L.bal
  rw [hi] at hwb
  have hx0 : x ≠ 0 := by
    intro h
    subst h
    simp [walk] at hwb
  obtain ⟨A, xi, B, ha, hxi, hwB⟩ := open_exists a 0 0 x hx (by omega)
  have hp := plain_split R a i b hR L.plainR
  have hia : i.arg = 1 := hp.1.2.2 (Or.inr hi)
  have hpx : plain xi := hp.2.1 xi (by rw [ha]; simp)
  have hxa : xi.arg = 1 := hpx.2.2 (Or.inl hxi)
  have hpA : ∀ z ∈ A, plain z := fun z hz => hp.2.1 z (by rw [ha]; simp [hz])
  have hpB : ∀ z ∈ B, plain z := fun z hz => hp.2.1 z (by rw [ha]; simp [hz])
  have hlenR : R.length ≤ (expand R).length := length_le_expand R L.plainR
  have hlen := L.len
  obtain ⟨a0, A', hA⟩ : ∃ a0 A', A = a0 :: A' := by
    cases A with
    | nil =>
      exfalso
      have : R.get? 0 = some xi := by rw [hR, ha]; rfl
      exact L.head xi this hxi
    | cons a0 A' => exact ⟨a0, A', rfl⟩
  refine ⟨A, xi, B, ha, ?_, ?_⟩
  · have hops : ops R = a0.op :: ops A' ++ '[' :: (ops B ++ ']' :: ops b) := by
      rw [hR, ha, hA]; simp [ops, hi, hxi]
    have hpos : a.length = (ops A').length + 1 + 1 + (ops B).length := by
      rw [ha, hA, ops_length, ops_length]; simp; omega
    have hg : PR.get? a.length = some (Instr.mk ']' ((B.length + 1) % WORD)) := by
      rw [L.hPR, hR, get_at_split, Option.map_some', ← hR, hops, hpos,
        jump_close a0.op (ops A') (ops B) (ops b) i hi hwB, hi, ops_length]
    rw [step_close_at PR _ _ hg]
    have hl : R.length = A.length + 1 + B.length + 1 + b.length := by
      rw [hR, ha]; simp; omega
    have hal : a.length = A.length + (B.length + 1) := by
      rw [ha]; simp
    have e1 : (a.length + WORD - (B.length + 1) % WORD % WORD) % WORD = A.length := by
      rw [Nat.mod_mod, hal]
      exact back_jump _ _ (by omega)
    have e2 : (a.length + 1) % WORD = (a ++ [i]).length := by
      rw [Nat.mod_eq_of_lt (by omega)]; simp
    rw [e1, e2]
  · have hexpa : expand a = expand A ++ Instr.mk '[' 1 :: expand B := by
      rw [ha, expand_append, expand_bracket xi _ hxa, hxi]
    have hexp : expand R
        = expand A ++ Instr.mk '[' 1 :: (expand B ++ Instr.mk ']' 1 :: expand b) := by
      rw [hR, expand_append, hexpa, expand_bracket i _ hia, hi]
      simp
    have hAl : 1 ≤ (expand A).length := by
      have := length_le_expand A hpA
      rw [hA] at this ⊢
      simp only [List.length_cons] at this
      omega
    obtain ⟨u0, L', hL⟩ : ∃ u0 L', ops (expand A) = u0 :: L' := by
      cases he : ops (expand A) with
      | nil =>
        have := ops_length (expand A)
        rw [he] at this
        simp only [List.length_nil] at this
        omega
      | cons u0 L' => exact ⟨u0, L', rfl⟩
    have hLl : (expand A).length = L'.length + 1 := by
      rw [← ops_length, hL]; rfl
    have hops : ops (expand R)
        = u0 :: L' ++ '[' :: (ops (expand B) ++ ']' :: ops (expand b)) := by
      rw [hexp, ops_append, hL]; simp [ops]
    have hwB' : walk (ops (expand B)) 0 = some 0 := by
      rw [walk_expand B hpB]; exact hwB
    have hpos : (expand a).length = L'.length + 1 + 1 + (ops (expand B)).length := by
      rw [hexpa, ops_length]; simp; omega
    have hg : PU.get? (expand a).length
        = some (Instr.mk ']' (((expand B).length + 1) % WORD)) := by
      have hget : (expand R).get? (expand a).length = some (Instr.mk ']' 1) := by
        rw [hexp, hexpa]
        have := get_at_split (expand A ++ Instr.mk '[' 1 :: expand B) (Instr.mk ']' 1)
          (expand b)
        simpa using this
      rw [L.hPU, hget, Option.map_some', hops, hpos,
        jump_close u0 L' (ops (expand B)) (ops (expand b)) _ rfl hwB', ops_length]
    rw [step_close_at PU _ _ hg]
    have hl : (expand R).length
        = (expand A).length + 1 + (expand B).length + 1 + (expand b).length := by
      rw [hexp]; simp; omega
    have hal : (expand a).length = (expand A).length + ((expand B).length + 1) := by
      rw [hexpa]; simp
    have e1 : ((expand a).length + WORD - ((expand B).length + 1) % WORD % WORD) % WORD
        = (expand A).length := by
      rw [Nat.mod_mod, hal]
      exact back_jump _ _ (by omega)
    have e2 : ((expand a).length + 1) % WORD = (expand (a ++ [i])).length := by
      rw [Nat.mod_eq_of_lt (by omega), expand_snoc_len, hia]
    rw [e1, e2]

theorem get_past_end (P R : List Instr) (f : Instr → Instr)
    (h : P.get? R.length = (R.get? R.length).map f) : P.get? R.length = none := by
  rw [h, List.get?_eq_none.2 (Nat.le_refl _)]
  rfl

theorem sim_step {R PR PU : List Instr} (L : Linked R PR PU) (mR mU : Machine)
    (hs : Sim R mR mU) :
    (step PR mR = none ∧ step PU mU = none)
      ∨ ∃ mR1 k mU1, step PR mR = some mR1 ∧ nsteps PU (k + 1) mU = some mU1
          ∧ Sim R mR1 mU1 := by
  obtain ⟨a, b, hR, hip, hU⟩ := hs
  obtain ⟨t, dp, ip, o⟩ := mR
  simp only at hip
  subst hip
  subst hU
  simp only [retarget]
  cases b with
  | nil =>
    left
    rw [List.append_nil] at hR
    subst hR
    constructor
    · simp only [step, get_past_end PR R _ (L.hPR R.length)]
    · have := L.hPU (expand R).length
      simp only [step, get_past_end PU (expand R) _ this]
  | cons i b =>
    right
    by_cases h1 : i.op = '['
    · obtain ⟨B, y, C, hb, hsR, hsU⟩ := sim_step_open L a i b hR h1 t dp o
      have hn := nsteps_succ PU 0 _ _ hsU
      simp only [nsteps] at hn
      refine ⟨_, 0, _, hsR, hn, ?_⟩
      by_cases hz : t dp = 0
      · simp only [hz, if_true]
        exact ⟨a ++ i :: B, y :: C, by rw [hR, hb]; simp, rfl, rfl⟩
      · simp only [hz, if_false]
        exact ⟨a ++ [i], b, by rw [hR]; simp, rfl, rfl⟩
    · by_cases h2 : i.op = ']'
      · obtain ⟨A, x, B, ha, hsR, hsU⟩ := sim_step_close L a i b hR h2 t dp o
        have hn := nsteps_succ PU 0 _ _ hsU
        simp only [nsteps] at hn
        refine ⟨_, 0, _, hsR, hn, ?_⟩
        by_cases hz : t dp = 0
        · simp only [hz, ne_eq, not_true_eq_false, if_false]
          exact ⟨a ++ [i], b, by rw [hR]; simp, rfl, rfl⟩
        · simp only [hz, ne_eq, not_false_eq_true, if_true]
          exact ⟨A, x :: B ++ i :: b, by rw [hR, ha]; simp, rfl, rfl⟩
      · obtain ⟨hsR, hsU⟩ := sim_step_six L a i b hR h1 h2 t dp o
        refine ⟨_, i.arg - 1, _, hsR, hsU, ?_⟩
        refine ⟨a ++ [i], b, by rw [hR]; simp, by simp [retarget], ?_⟩
        rw [expand_snoc_len]
        rfl

theorem sim_run_forward {R PR PU : List Instr} (L : Linked R PR PU) :
    ∀ (fuel : Nat) (mR mU mR1 : Machine), Sim R mR mU → run PR fuel mR = .ok mR1 →
      ∃ fuel1 mU1, run PU fuel1 mU = .ok mU1 ∧ Sim R mR1 mU1 := by
  intro fuel
  induction fuel with
  | zero =>
    intro mR mU mR1 hs hr
    rcases sim_step L mR mU hs with ⟨h1, h2⟩ | ⟨m1, k, m2, h1, _, _⟩
    · rw [run_halt 0 h1] at hr
      injection hr with hr
      subst hr
      exact ⟨0, mU, run_halt 0 h2, hs⟩
    · simp [run, h1] at hr
  | succ fuel ih =>
    intro mR mU mR1 hs hr
    rcases sim_step L mR mU hs with ⟨h1, h2⟩ | ⟨m1, k, m2, h1, h2, h3⟩
    · rw [run_halt _ h1] at hr
      injection hr with hr
      subst hr
      exact ⟨0, mU, run_halt 0 h2, hs⟩
    · rw [run_step _ h1] at hr
      obtain ⟨f1, mU1, h4, h5⟩ := ih m1 m2 mR1 h3 hr
      exact ⟨k + 1 + f1, mU1, by rw [run_nsteps PU (k + 1) mU m2 f1 h2]; exact h4, h5⟩

theorem sim_run_backward {R PR PU : List Instr} (L : Linked R PR PU) :
    ∀ (fuel : Nat) (mR mU mU1 : Machine), Sim R mR mU → run PU fuel mU = .ok mU1 →
      ∃ fuel1 mR1, run PR fuel1 mR = .ok mR1 ∧ Sim R mR1 mU1 := by
  intro fuel
  induction fuel using Nat.strong_induction_on with
  | _ fuel ih =>
    intro mR mU mU1 hs hr
    rcases sim_step L mR mU hs with ⟨h1, h2⟩ | ⟨m1, k, m2, h1, h2, h3⟩
    · rw [run_halt _ h2] at hr
      injection hr with hr
      subst hr
      exact ⟨0, mR, run_halt 0 h1, hs⟩
    · obtain ⟨h4, h5⟩ := run_after_nsteps PU (k + 1) mU m2 mU1 fuel h2 hr
      obtain ⟨f1, mR1, h6, h7⟩ := ih (fuel - (k + 1)) (by omega) m1 m2 mU1 h3 h5
      exact ⟨f1 + 1, mR1, by rw [run_step _ h1]; exact h6, h7⟩

theorem sim_observe {R : List Instr} {mR mU : Machine} (h : Sim R mR mU) :
    mU.tape = mR.tape ∧ mU.data_ptr = mR.data_ptr ∧ mU.out = mR.out := by
  obtain ⟨a, b, _, _, hU⟩ := h
  subst hU
  exact ⟨rfl, rfl, rfl⟩

theorem reduced_walk (c0 : Char) (rest : List Char) (R : List Instr)
    (hR : reduce_rle (parse (c0 :: rest)) = .ok R) (d : Nat) :
    walk (ops R) d = walk (c0 :: c0 :: rest) d := by
  have hp : parse (c0 :: rest) = Instr.mk c0 1 :: parse rest := rfl
  rw [hp, reduce_rle_cons] at hR
  injection hR with hR
  rw [← hR, ← hp]
  exact walk_rle_from (c0 :: rest) (Instr.mk c0 0) d

theorem linked_of_source (c0 : Char) (rest : List Char)
    (hrec : ∀ c ∈ c0 :: rest, recognised c = true) (hbal : balanced (c0 :: rest) = true)
    (hfirst : c0 ≠ '[') (hlen : (c0 :: rest).length < WORD) :
    ∃ R PR PU, reduce_rle (parse (c0 :: rest)) = .ok R ∧ resolve R = .ok PR
      ∧ resolve (parse (c0 :: rest)) = .ok PU ∧ Linked R PR PU := by
  have hw : walk (c0 :: rest) 0 = some 0 := by simpa [balanced] using hbal
  have hc : c0 ≠ ']' := by
    intro h
    subst h
    simp [walk] at hw
  obtain ⟨R, hR, hexp, hpl, k, t, hkt⟩ := reduced_is_plain c0 rest hrec hfirst hc hlen
  have hheadR : ∀ i, R.get? 0 = some i → i.op = c0 := by
    intro i hi
    rw [hkt] at hi
    simp only [List.get?_cons_zero, Option.some.injEq] at hi
    rw [← hi]
  obtain ⟨PR, hPR1, _, hPR3⟩ := resolve_spec R (fun i hi => by rw [hheadR i hi]; exact hc)
  obtain ⟨PU, hPU1, _, hPU3⟩ := resolve_spec (parse (c0 :: rest)) (fun i hi => by
    simp only [parse, List.map_cons, List.get?_cons_zero, Option.some.injEq] at hi
    rw [← hi]; exact hc)
  refine ⟨R, PR, PU, hR, hPR1, hPU1, ?_⟩
  refine ⟨hpl, ?_, fun i hi => by rw [hheadR i hi]; exact hfirst, ?_, hPR3, ?_⟩
  · rw [reduced_walk c0 rest R hR 0, walk_cons_other c0 _ 0 hfirst hc]
    exact hw
  · rw [hexp]
    simpa [parse] using hlen
  · rw [hexp]
    exact hPU3

/-- C1, as the code has it: for a source of fewer than 65536 characters, all
among the eight operators, with balanced brackets and a first character other
than `[`, the run of `eval` halts exactly when the run of the unreduced unit
sequence halts, and then with the same output bytes, tape and data pointer. -/
theorem reduction_refines_direct (s : List Char) (hne : s ≠ [])
    (hrec : ∀ c ∈ s, recognised c = true) (hbal : balanced s = true)
    (hfirst : s.head? ≠ some '[') (hlen : s.length < 65536) :
    ∀ (t : Nat → Nat) (dp : Nat) (o : List Nat),
      (∃ fuel m, eval fuel s = .ok m ∧ m.tape = t ∧ m.data_ptr = dp ∧ m.out = o)
        ↔ (∃ fuel m, eval_direct fuel s = .ok m ∧ m.tape = t ∧ m.data_ptr = dp ∧ m.out = o) := by
  obtain ⟨c0, rest, rfl⟩ : ∃ c0 rest, s = c0 :: rest := by
    cases s with
    | nil => exact absurd rfl hne
    | cons c0 rest => exact ⟨c0, rest, rfl⟩
  have hf : c0 ≠ '[' := by
    intro h
    subst h
    exact hfirst rfl
  obtain ⟨R, PR, PU, hR, hPR, hPU, L⟩ := linked_of_source c0 rest hrec hbal hf hlen
  have hev : ∀ fuel, eval fuel (c0 :: rest) = run PR fuel Machine.fresh := by
    intro fuel
    simp only [eval, hR, exec_stream, hPR]
  have hed : ∀ fuel, eval_direct fuel (c0 :: rest) = run PU fuel Machine.fresh := by
    intro fuel
    simp only [eval_direct, exec_stream, hPU]
  have h0 : Sim R Machine.fresh Machine.fresh := ⟨[], R, rfl, rfl, rfl⟩
  intro t dp o
  constructor
  · rintro ⟨fuel, m, hm, h1, h2, h3⟩
    rw [hev] at hm
    obtain ⟨f1, m1, hm1, hs⟩ := sim_run_forward L fuel _ _ m h0 hm
    obtain ⟨e1, e2, e3⟩ := sim_observe hs
    exact ⟨f1, m1, by rw [hed]; exact hm1, e1.trans h1, e2.trans h2, e3.trans h3⟩
  · rintro ⟨fuel, m, hm, h1, h2, h3⟩
    rw [hed] at hm
    obtain ⟨f1, m1, hm1, hs⟩ := sim_run_backward L fuel _ _ m h0 hm
    obtain ⟨e1, e2, e3⟩ := sim_observe hs
    exact ⟨f1, m1, by rw [hev]; exact hm1, e1.symm.trans h1, e2.symm.trans h2,
      e3.symm.trans h3⟩

theorem reduction_refines_direct_witness :
    "++[->+++<].>..".toList ≠ [] ∧ (∀ c ∈ "++[->+++<].>..".toList, recognised c = true)
      ∧ balanced "++[->+++<].>..".toList = true
      ∧ "++[->+++<].>..".toList.head? ≠ some '['
      ∧ "++[->+++<].>..".toList.length < 65536
      ∧ ∀ (t : Nat → Nat) (dp : Nat) (o : List Nat),
        (∃ fuel m, eval fuel "++[->+++<].>..".toList = .ok m ∧ m.tape = t ∧ m.data_ptr = dp
            ∧ m.out = o)
          ↔ (∃ fuel m, eval_direct fuel "++[->+++<].>..".toList = .ok m ∧ m.tape = t
            ∧ m.data_ptr = dp ∧ m.out = o) :=
  ⟨by decide, by decide, by decide, by decide, by decide,
    reduction_refines_direct "++[->+++<].>..".toList (by decide) (by decide) (by decide)
      (by decide) (by decide)⟩

theorem eval_direct_out_unique (input : List Char) (f1 f2 : Nat) (o1 o2 : List Nat)
    (h1 : eval_direct_out f1 input = .ok o1) (h2 : eval_direct_out f2 input = .ok o2) :
    o1 = o2 := by
  unfold eval_direct_out at h1 h2
  cases hm1 : eval_direct f1 input with
  | error e => simp [hm1, Except.map] at h1
  | ok m1 =>
    cases hm2 : eval_direct f2 input with
    | error e => simp [hm2, Except.map] at h2
    | ok m2 =>
      simp only [hm1, hm2, Except.map, Except.ok.injEq] at h1 h2
      rw [← h1, ← h2, exec_stream_ok_unique _ f1 f2 m1 m2 hm1 hm2]

/-- C1 fails as stated: on `>[..` the unmatched `[` jumps to the last
instruction of its own stream, which is a run of two dots after reduction and a
single dot before it, so `eval` writes two bytes and the direct run one. -/
theorem reduction_differs_unbalanced :
    (∀ c ∈ ">[..".toList, recognised c = true)
      ∧ eval_out 8 ">[..".toList = .ok [0, 0]
      ∧ eval_direct_out 8 ">[..".toList = .ok [0]
      ∧ ¬ ∃ f1 f2 o, eval_out f1 ">[..".toList = .ok o
          ∧ eval_direct_out f2 ">[..".toList = .ok o := by
  have h1 : eval_out 8 ">[..".toList = .ok [0, 0] := by decide
  have h2 : eval_direct_out 8 ">[..".toList = .ok [0] := by decide
  refine ⟨by decide, h1, h2, ?_⟩
  rintro ⟨f1, f2, o, h3, h4⟩
  have e1 := eval_out_unique _ _ _ _ _ h1 h3
  have e2 := eval_direct_out_unique _ _ _ _ _ h2 h4
  rw [← e2] at e1
  revert e1
  decide

/-! ## Where sixteen bits end: a source of 65536 characters -/

theorem exec_ip_lt (i : Instr) (m : Machine) : (exec_instr i m).inst_ptr < WORD := by
  have hw : 0 < WORD := by decide
  simp only [exec_instr]
  split_ifs <;> exact Nat.mod_lt _ hw

theorem run_never_ends (prog : List Instr) (hlen : WORD ≤ prog.length) :
    ∀ (fuel : Nat) (m : Machine), m.inst_ptr < WORD → run prog fuel m = .error .no_fuel := by
  intro fuel
  induction fuel with
  | zero =>
    intro m hm
    have hg : m.inst_ptr < prog.length := by omega
    simp only [run, step, List.get?_eq_get hg]
  | succ fuel ih =>
    intro m hm
    have hg : m.inst_ptr < prog.length := by omega
    simp only [run, step, List.get?_eq_get hg]
    exact ih _ (exec_ip_lt _ _)

theorem direct_plus_never_ends (n : Nat) (hn : WORD ≤ n) (fuel : Nat) :
    eval_direct fuel (plus_then n []) = .error .no_fuel := by
  obtain ⟨k, rfl⟩ : ∃ k, n = k + 1 := ⟨n - 1, by unfold WORD at hn; omega⟩
  have hp : parse (plus_then (k + 1) []) = Instr.mk '+' 1 :: parse (plus_then k []) := by
    simp [parse, plus_then, List.replicate_succ]
  have hh : ∀ i, (parse (plus_then (k + 1) [])).get? 0 = some i → i.op ≠ ']' := by
    intro i hi
    rw [hp] at hi
    simp only [List.get?_cons_zero, Option.some.injEq] at hi
    rw [← hi]
    decide
  obtain ⟨PU, h1, h2, _⟩ := resolve_spec (parse (plus_then (k + 1) [])) hh
  have hl : WORD ≤ PU.length := by
    rw [← ops_length PU, h2, ops_length]
    simpa [parse, plus_then] using hn
  simp only [eval_direct, exec_stream, h1]
  exact run_never_ends PU hl fuel Machine.fresh (by decide)

theorem reduced_plus_only (n : Nat) (hn : 1 ≤ n) (fuel : Nat) :
    eval fuel (plus_then n []) = exec_stream fuel [Instr.mk '+' (n % WORD)] := by
  simp only [eval, reduced_plus_then n hn]
  rfl

/-- The length bound of C1 is needed: a source of 65536 plus signs reduces to
one instruction and `eval` halts after one turn, while the unit stream has
65536 instructions, which the 16-bit instruction pointer can never pass. -/
theorem reduction_differs_long :
    (∃ m, eval 1 (plus_then 65536 []) = .ok m ∧ m.out = [])
      ∧ ∀ fuel, eval_direct fuel (plus_then 65536 []) = .error .no_fuel := by
  constructor
  · rw [reduced_plus_only 65536 (by omega) 1]
    exact ⟨_, rfl, rfl⟩
  · exact direct_plus_never_ends 65536 (Nat.le_refl _)

/-! ## Comments after the first character -/

theorem rle_from_cons (top inst : Instr) (l : List Instr) :
    rle_from top (inst :: l)
      = if inst.op = top.op ∧ inst.op ≠ '[' ∧ inst.op ≠ ']' then
          rle_from (Instr.mk top.op ((top.arg + inst.arg) % WORD)) l
        else if recognised inst.op then top :: rle_from (Instr.mk inst.op inst.arg) l
        else rle_from top l := rfl

theorem parse_cons (c : Char) (l : List Char) : parse (c :: l) = Instr.mk c 1 :: parse l := rfl

theorem strip_cons_keep (c : Char) (l : List Char) (h : recognised c = true) :
    strip_comments (c :: l) = c :: strip_comments l := by
  simp [strip_comments, h]

theorem strip_cons_drop (c : Char) (l : List Char) (h : ¬ recognised c = true) :
    strip_comments (c :: l) = strip_comments l := by
  simp [strip_comments, h]

theorem rle_from_strip (l : List Char) :
    ∀ top : Instr, recognised top.op = true →
      rle_from top (parse (strip_comments l)) = rle_from top (parse l) := by
  induction l with
  | nil => intro top _; rfl
  | cons c l ih =>
    intro top ht
    by_cases hc : recognised c = true
    · rw [strip_cons_keep c l hc, parse_cons, parse_cons, rle_from_cons, rle_from_cons]
      simp only [hc, if_true]
      rw [ih (Instr.mk top.op ((top.arg + 1) % WORD)) ht, ih (Instr.mk c 1) hc]
    · have hne : ¬ (c = top.op) := fun h => hc (h ▸ ht)
      rw [strip_cons_drop c l hc, parse_cons, rle_from_cons, if_neg (fun h => hne h.1),
        if_neg hc]
      exact ih top ht

/-- Comments are dropped when the source starts with an operator: the reduced
stream is then the reduced stream of the source without its comments. -/
theorem reduce_ignores_comments (c0 : Char) (rest : List Char) (h0 : recognised c0 = true) :
    reduce_rle (parse (strip_comments (c0 :: rest))) = reduce_rle (parse (c0 :: rest)) := by
  have h := rle_from_strip (c0 :: rest) (Instr.mk c0 0) h0
  rw [strip_cons_keep c0 rest h0] at h ⊢
  rw [parse_cons, reduce_rle_cons, parse_cons, reduce_rle_cons]
  rw [parse_cons, parse_cons] at h
  exact congrArg Except.ok h

/-! ## The parser, and what jump resolution leaves alone -/

/-- C13: `parse` gives one instruction per character, in order, with that
character as operator and the argument 1; no character is left out. -/
theorem parse_units (s : List Char) :
    (parse s).length = s.length
      ∧ ∀ i, (parse s).get? i = (s.get? i).map (fun c => Instr.mk c 1) := by
  constructor
  · simp [parse]
  · intro i
    simp [parse]

theorem resolve_nil : resolve [] = .ok [] := rfl

theorem resolve_ok_spec (v P : List Instr) (h : resolve v = .ok P) :
    ops P = ops v ∧ ∀ p, P.get? p = (v.get? p).map (jump_arg (ops v) p) := by
  cases v with
  | nil =>
    rw [resolve_nil] at h
    injection h with h
    subst h
    exact ⟨rfl, fun p => rfl⟩
  | cons a l =>
    by_cases ha : a.op = ']'
    · rw [resolve_close_first (a :: l) a rfl ha] at h
      cases h
    · obtain ⟨r, h1, h2, h3⟩ := resolve_spec (a :: l) (fun i hi => by
        simp only [List.get?_cons_zero, Option.some.injEq] at hi
        rw [← hi]; exact ha)
      rw [h1] at h
      injection h with h
      subst h
      exact ⟨h2, h3⟩

/-- C14: when jump resolution succeeds, the resolved stream has the length of
the stream it was given and the same operator at every position, and every
instruction that is not a bracket is unchanged. -/
theorem resolve_frame (v P : List Instr) (h : resolve v = .ok P) :
    P.length = v.length
      ∧ (∀ p, (P.get? p).map Instr.op = (v.get? p).map Instr.op)
      ∧ ∀ p i, v.get? p = some i → i.op ≠ '[' → i.op ≠ ']' → P.get? p = some i := by
  obtain ⟨k1, k2⟩ := resolve_ok_spec v P h
  refine ⟨?_, ?_, ?_⟩
  · rw [← ops_length P, k1, ops_length]
  · intro p
    have := congrArg (fun l => l.get? p) k1
    simpa [ops] using this
  · intro p i hi h1 h2
    rw [k2 p, hi, Option.map_some', jump_arg_other _ _ _ h1 h2]

theorem resolve_frame_witness :
    resolve [Instr.mk '+' 2, Instr.mk '[' 1, Instr.mk '-' 1, Instr.mk ']' 1, Instr.mk '.' 3]
        = .ok [Instr.mk '+' 2, Instr.mk '[' 2, Instr.mk '-' 1, Instr.mk ']' 2, Instr.mk '.' 3]
      ∧ ([Instr.mk '+' 2, Instr.mk '[' 2, Instr.mk '-' 1, Instr.mk ']' 2, Instr.mk '.' 3].length
          = [Instr.mk '+' 2, Instr.mk '[' 1, Instr.mk '-' 1, Instr.mk ']' 1,
              Instr.mk '.' 3].length
        ∧ (∀ p, ([Instr.mk '+' 2, Instr.mk '[' 2, Instr.mk '-' 1, Instr.mk ']' 2,
              Instr.mk '.' 3].get? p).map Instr.op
            = ([Instr.mk '+' 2, Instr.mk '[' 1, Instr.mk '-' 1, Instr.mk ']' 1,
              Instr.mk '.' 3].get? p).map Instr.op)
        ∧ ∀ p i, [Instr.mk '+' 2, Instr.mk '[' 1, Instr.mk '-' 1, Instr.mk ']' 1,
              Instr.mk '.' 3].get? p = some i → i.op ≠ '[' → i.op ≠ ']' →
            [Instr.mk '+' 2, Instr.mk '[' 2, Instr.mk '-' 1, Instr.mk ']' 2,
              Instr.mk '.' 3].get? p = some i) :=
  ⟨by decide, resolve_frame _ _ (by decide)⟩

theorem reduced_head (c0 : Char) (rest : List Char) (R : List Instr)
    (hR : reduce_rle (parse (c0 :: rest)) = .ok R) :
    ∃ k t, R = Instr.mk c0 k :: t := by
  have hp : parse (c0 :: rest) = Instr.mk c0 1 :: parse rest := rfl
  rw [hp, reduce_rle_cons] at hR
  injection hR with hR
  obtain ⟨k, t, hkt⟩ := rle_from_head (Instr.mk c0 1 :: parse rest) (Instr.mk c0 0)
  exact ⟨k, t, by rw [← hR, hkt]⟩

/-- C19: for a non-empty source the jump resolver reads outside the reduced
stream exactly when the first character is `]`, the backward scan of position 0
then starting one slot before the vector; for every other first character
resolution returns, and at every position the forward scan and, from position 1
on, the backward scan stay inside the stream and return a count. -/
theorem resolver_reads_outside_iff (s : List Char) (hs : s ≠ []) (R : List Instr)
    (hR : reduce_rle (parse s) = .ok R) :
    (resolve R = .error .bad_read ↔ s.head? = some ']')
      ∧ (s.head? = some ']' →
          linear_scan R (-1 + ((0 : Nat) : Int)) 0 '[' ']' (-1) = .error .bad_read)
      ∧ (s.head? ≠ some ']' → ∃ P, resolve R = .ok P)
      ∧ ∀ p, p < R.length →
          (∃ n, linear_scan R (1 + (p : Int)) R.length ']' '[' 1 = .ok n)
            ∧ (1 ≤ p → ∃ n, linear_scan R (-1 + (p : Int)) 0 '[' ']' (-1) = .ok n) := by
  obtain ⟨c0, rest, rfl⟩ : ∃ c0 rest, s = c0 :: rest := by
    cases s with
    | nil => exact absurd rfl hs
    | cons c0 rest => exact ⟨c0, rest, rfl⟩
  obtain ⟨k, t, hkt⟩ := reduced_head c0 rest R hR
  have hg : R.get? 0 = some (Instr.mk c0 k) := by rw [hkt]; rfl
  have hok : c0 ≠ ']' → ∃ P, resolve R = .ok P := by
    intro hc
    obtain ⟨P, hP, _⟩ := resolve_spec R (fun i hi => by
      rw [hg] at hi
      injection hi with hi
      rw [← hi]; exact hc)
    exact ⟨P, hP⟩
  refine ⟨?_, fun _ => linear_scan_before_begin R, ?_, ?_⟩
  · constructor
    · intro h
      by_contra hc
      have hc' : c0 ≠ ']' := fun e => hc (by rw [e]; rfl)
      obtain ⟨P, hP⟩ := hok hc'
      rw [hP] at h
      cases h
    · intro h
      simp only [List.head?_cons, Option.some.injEq] at h
      exact resolve_close_first R _ hg h
  · intro h
    exact hok (fun e => h (by rw [e]; rfl))
  · intro p hp
    refine ⟨⟨_, linear_scan_forward R p hp⟩, ?_⟩
    intro h1
    obtain ⟨q, rfl⟩ : ∃ q, p = q + 1 := ⟨p - 1, by omega⟩
    exact ⟨_, linear_scan_backward R q hp⟩

theorem resolver_reads_outside_iff_witness :
    "]+[".toList ≠ [] ∧ reduce_rle (parse "]+[".toList)
        = .ok [Instr.mk ']' 0, Instr.mk ']' 1, Instr.mk '+' 1, Instr.mk '[' 1]
      ∧ resolve [Instr.mk ']' 0, Instr.mk ']' 1, Instr.mk '+' 1, Instr.mk '[' 1]
        = .error .bad_read :=
  ⟨by decide, by decide,
    (resolver_reads_outside_iff "]+[".toList (by decide) _ (by decide)).1.2 (by decide)⟩

/-! ## Runs in the reduced stream -/

theorem rle_from_chain (l : List Instr) :
    ∀ top : Instr, List.Chain' run_ends (rle_from top l) := by
  induction l with
  | nil => intro top; simp [rle_from]
  | cons inst l ih =>
    intro top
    rw [rle_from_cons]
    split_ifs with h1 h2
    · exact ih _
    · obtain ⟨k, t, hkt⟩ := rle_from_head l (Instr.mk inst.op inst.arg)
      have hc := ih (Instr.mk inst.op inst.arg)
      rw [hkt] at hc ⊢
      refine List.Chain'.cons ?_ hc
      intro e
      simp only at e
      by_contra hb
      push_neg at hb
      exact h1 ⟨e.symm, by rw [← e]; exact hb.1, by rw [← e]; exact hb.2⟩
    · exact ih _

theorem chain_get {R : Instr → Instr → Prop} (l : List Instr) (hc : List.Chain' R l) :
    ∀ (p : Nat) (x y : Instr), l.get? p = some x → l.get? (p + 1) = some y → R x y := by
  induction l with
  | nil => intro p x y h; simp at h
  | cons a l ih =>
    intro p x y hx hy
    cases l with
    | nil => simp at hy
    | cons b t =>
      rw [List.chain'_cons] at hc
      cases p with
      | zero =>
        simp only [List.get?_cons_zero, Option.some.injEq] at hx
        simp only [List.get?_cons_succ, List.get?_cons_zero, Option.some.injEq] at hy
        rw [← hx, ← hy]; exact hc.1
      | succ p =>
        simp only [List.get?_cons_succ] at hx hy
        exact ih hc.2 p x y hx (by simpa using hy)

/-- C16: in the reduced stream of a non-empty source no two consecutive
instructions carry the same operator, unless that operator is a bracket. -/
theorem runs_compressed (s : List Char) (hs : s ≠ []) (R : List Instr)
    (hR : reduce_rle (parse s) = .ok R) (p : Nat) (x y : Instr)
    (hx : R.get? p = some x) (hy : R.get? (p + 1) = some y) (hxy : x.op = y.op) :
    x.op = '[' ∨ x.op = ']' := by
  cases s with
  | nil => exact absurd rfl hs
  | cons c0 rest =>
    rw [parse_cons, reduce_rle_cons] at hR
    injection hR with hR
    have hc := rle_from_chain (Instr.mk c0 1 :: parse rest) (Instr.mk c0 0)
    rw [hR] at hc
    exact chain_get R hc p x y hx hy hxy

theorem runs_compressed_witness :
    "++[[-".toList ≠ []
      ∧ reduce_rle (parse "++[[-".toList)
          = .ok [Instr.mk '+' 2, Instr.mk '[' 1, Instr.mk '[' 1, Instr.mk '-' 1]
      ∧ [Instr.mk '+' 2, Instr.mk '[' 1, Instr.mk '[' 1, Instr.mk '-' 1].get? 1
          = some (Instr.mk '[' 1)
      ∧ [Instr.mk '+' 2, Instr.mk '[' 1, Instr.mk '[' 1, Instr.mk '-' 1].get? (1 + 1)
          = some (Instr.mk '[' 1)
      ∧ (Instr.mk '[' 1).op = (Instr.mk '[' 1).op
      ∧ ((Instr.mk '[' 1).op = '[' ∨ (Instr.mk '[' 1).op = ']') :=
  ⟨by decide, by decide, by decide, by decide, rfl,
    runs_compressed "++[[-".toList (by decide)
      [Instr.mk '+' 2, Instr.mk '[' 1, Instr.mk '[' 1, Instr.mk '-' 1] (by decide) 1
      (Instr.mk '[' 1) (Instr.mk '[' 1) (by decide) (by decide) rfl⟩

theorem write_out_rle_from (l : List Char) :
    ∀ top : Instr, (∀ c ∈ l, recognised c = true) → short_runs l = true →
      (top.op ≠ '[' → top.op ≠ ']' → top.arg + run_at top.op l < WORD) →
      write_out (rle_from top (parse l)) = List.replicate top.arg top.op ++ l := by
  induction l with
  | nil =>
    intro top _ _ _
    simp [parse, rle_from, write_out]
  | cons c l ih =>
    intro top hrec hsr hb
    have hrc : recognised c = true := hrec c (List.mem_cons_self _ _)
    have hrl : ∀ d ∈ l, recognised d = true := fun d hd => hrec d (List.mem_cons_of_mem _ hd)
    simp only [short_runs, Bool.and_eq_true, Bool.or_eq_true, beq_iff_eq,
      decide_eq_true_eq] at hsr
    obtain ⟨hc, hsl⟩ := hsr
    rw [parse_cons, rle_from_cons]
    simp only
    split_ifs with h1
    · obtain ⟨e, n1, n2⟩ := h1
      have hb1 := hb (e ▸ n1) (e ▸ n2)
      simp only [run_at, if_pos e] at hb1
      rw [Nat.mod_eq_of_lt (by omega)]
      rw [ih (Instr.mk top.op (top.arg + 1)) hrl hsl (fun _ _ => by simp only; omega)]
      simp only
      rw [List.replicate_succ', List.append_assoc, e]
      rfl
    · simp only [write_out]
      rw [ih (Instr.mk c 1) hrl hsl (fun n1 n2 => by
        simp only at n1 n2 ⊢
        rcases hc with (h | h) | h
        · exact absurd h n1
        · exact absurd h n2
        · omega)]
      rfl

/-- C17: for a non-empty source made only of the eight operators in which
every run of a repeated non-bracket operator is shorter than 65536, writing
each instruction of the reduced stream out as `arg` copies of its operator
gives back the source. -/
theorem reduction_loses_nothing (s : List Char) (hs : s ≠ [])
    (hrec : ∀ c ∈ s, recognised c = true) (hruns : short_runs s = true) :
    ∃ R, reduce_rle (parse s) = .ok R ∧ write_out R = s := by
  cases s with
  | nil => exact absurd rfl hs
  | cons c0 rest =>
    refine ⟨_, by rw [parse_cons, reduce_rle_cons], ?_⟩
    rw [← parse_cons, write_out_rle_from (c0 :: rest) (Instr.mk c0 0) hrec hruns]
    · rfl
    · intro n1 n2
      simp only [short_runs, Bool.and_eq_true, Bool.or_eq_true, beq_iff_eq,
        decide_eq_true_eq] at hruns
      simp only [run_at, if_true, Nat.zero_add] at n1 n2 ⊢
      rcases hruns.1 with (h | h) | h
      · exact absurd h n1
      · exact absurd h n2
      · exact h

theorem reduction_loses_nothing_witness :
    "[[++]-]..".toList ≠ [] ∧ (∀ c ∈ "[[++]-]..".toList, recognised c = true)
      ∧ short_runs "[[++]-]..".toList = true
      ∧ ∃ R, reduce_rle (parse "[[++]-]..".toList) = .ok R ∧ write_out R = "[[++]-]..".toList :=
  ⟨by decide, by decide, by decide,
    reduction_loses_nothing "[[++]-]..".toList (by decide) (by decide) (by decide)⟩

/-! ## Sources without brackets -/

theorem rle_from_ops (l : List Char) :
    ∀ (top i : Instr), i ∈ rle_from top (parse l) → i.op = top.op ∨ i.op ∈ l := by
  induction l with
  | nil =>
    intro top i hi
    simp only [parse, List.map_nil, rle_from, List.mem_singleton] at hi
    exact Or.inl (by rw [hi])
  | cons c l ih =>
    intro top i hi
    rw [parse_cons, rle_from_cons] at hi
    simp only at hi
    split_ifs at hi with h1 h2
    · rcases ih _ i hi with h | h
      · exact Or.inl h
      · exact Or.inr (List.mem_cons_of_mem _ h)
    · rcases List.mem_cons.1 hi with h | h
      · exact Or.inl (by rw [h])
      · rcases ih _ i h with h | h
        · exact Or.inr (by rw [h]; exact List.mem_cons_self _ _)
        · exact Or.inr (List.mem_cons_of_mem _ h)
    · rcases ih _ i hi with h | h
      · exact Or.inl h
      · exact Or.inr (List.mem_cons_of_mem _ h)

theorem reduced_ops (s : List Char) (R : List Instr) (hR : reduce_rle (parse s) = .ok R) :
    ∀ i ∈ R, i.op ∈ s := by
  cases s with
  | nil => cases hR
  | cons c0 rest =>
    rw [parse_cons, reduce_rle_cons, ← parse_cons] at hR
    injection hR with hR
    intro i hi
    rw [← hR] at hi
    rcases rle_from_ops (c0 :: rest) _ i hi with h | h
    · rw [h]; exact List.mem_cons_self _ _
    · exact h

theorem exec_other_ip (i : Instr) (m : Machine) (h1 : i.op ≠ '[') (h2 : i.op ≠ ']') :
    (exec_instr i m).inst_ptr = (m.inst_ptr + 1) % WORD := by
  simp only [exec_instr, if_neg h1, if_neg h2]
  split_ifs <;> rfl

theorem nsteps_snoc (prog : List Instr) :
    ∀ (k : Nat) (m m1 m2 : Machine), nsteps prog k m = some m1 → step prog m1 = some m2 →
      nsteps prog (k + 1) m = some m2 := by
  intro k
  induction k with
  | zero =>
    intro m m1 m2 h hs
    simp only [nsteps, Option.some.injEq] at h
    subst h
    simp [nsteps, hs]
  | succ k ih =>
    intro m m1 m2 h hs
    simp only [nsteps] at h
    cases hm : step prog m with
    | none => rw [hm] at h; cases h
    | some m3 =>
      rw [hm] at h
      rw [nsteps_succ prog (k + 1) m m3 hm]
      exact ih m3 m1 m2 h hs

theorem straight_line (P : List Instr) (hnb : ∀ i ∈ P, i.op ≠ '[' ∧ i.op ≠ ']')
    (hn : P.length < WORD) (m0 : Machine) (h0 : m0.inst_ptr = 0) :
    ∀ k, k ≤ P.length → ∃ m, nsteps P k m0 = some m ∧ m.inst_ptr = k := by
  intro k
  induction k with
  | zero => intro _; exact ⟨m0, rfl, h0⟩
  | succ k ih =>
    intro hk
    obtain ⟨m, hm, hip⟩ := ih (by omega)
    have hlt : k < P.length := by omega
    have hs : step P m = some (exec_instr (P.get ⟨k, hlt⟩) m) := by
      simp only [step, hip, List.get?_eq_get hlt]
    refine ⟨_, nsteps_snoc P k m0 m _ hm hs, ?_⟩
    have hb := hnb _ (List.get_mem P k hlt)
    rw [exec_other_ip _ _ hb.1 hb.2, hip, Nat.mod_eq_of_lt (by omega)]

theorem resolve_no_brackets (R : List Instr) (hnb : ∀ i ∈ R, i.op ≠ '[' ∧ i.op ≠ ']') :
    resolve R = .ok R := by
  cases R with
  | nil => rfl
  | cons a l =>
    obtain ⟨r, h1, _, h3⟩ := resolve_spec (a :: l) (fun i hi => by
      simp only [List.get?_cons_zero, Option.some.injEq] at hi
      rw [← hi]; exact (hnb a (List.mem_cons_self _ _)).2)
    rw [h1]
    congr 1
    apply List.ext_get?
    intro p
    rw [h3 p]
    cases hg : (a :: l).get? p with
    | none => rfl
    | some i =>
      have hb := hnb i (List.get?_mem hg)
      rw [Option.map_some', jump_arg_other _ _ _ hb.1 hb.2]

/-- C20: for a non-empty source without brackets whose reduced stream has
`n ≤ 65535` instructions, resolution leaves the stream as it is, the k-th turn
of the execution loop starts with the instruction pointer at `k < n`, and after
exactly `n` turns the loop ends with the instruction pointer equal to `n`. -/
theorem no_bracket_run (s : List Char) (hs : s ≠ []) (hnb : ∀ c ∈ s, c ≠ '[' ∧ c ≠ ']')
    (R : List Instr) (hR : reduce_rle (parse s) = .ok R) (hn : R.length ≤ 65535) :
    resolve R = .ok R
      ∧ (∀ k, k < R.length → ∃ m i, nsteps R k Machine.fresh = some m ∧ m.inst_ptr = k
          ∧ R.get? m.inst_ptr = some i)
      ∧ ∃ m, nsteps R R.length Machine.fresh = some m ∧ m.inst_ptr = R.length
          ∧ step R m = none ∧ eval R.length s = .ok m := by
  have hne : 0 < s.length := List.length_pos.2 hs
  have hops : ∀ i ∈ R, i.op ≠ '[' ∧ i.op ≠ ']' := fun i hi => hnb _ (reduced_ops s R hR i hi)
  have hres := resolve_no_brackets R hops
  have hw : R.length < WORD := by unfold WORD; omega
  have hsl := straight_line R hops hw Machine.fresh rfl
  refine ⟨hres, ?_, ?_⟩
  · intro k hk
    obtain ⟨m, hm, hip⟩ := hsl k (by omega)
    exact ⟨m, R.get ⟨k, hk⟩, hm, hip, by rw [hip, List.get?_eq_get hk]⟩
  · obtain ⟨m, hm, hip⟩ := hsl R.length (Nat.le_refl _)
    have hstop : step R m = none := by
      simp only [step, hip, List.get?_eq_none.2 (Nat.le_refl _)]
    refine ⟨m, hm, hip, hstop, ?_⟩
    have hrun := run_nsteps R R.length Machine.fresh m 0 hm
    simp only [eval, hR, exec_stream, hres]
    rw [Nat.add_zero] at hrun
    rw [hrun]
    simp only [run, hstop]

theorem no_bracket_run_witness :
    "h++>.".toList ≠ [] ∧ (∀ c ∈ "h++>.".toList, c ≠ '[' ∧ c ≠ ']')
      ∧ reduce_rle (parse "h++>.".toList)
          = .ok [Instr.mk 'h' 1, Instr.mk '+' 2, Instr.mk '>' 1, Instr.mk '.' 1]
      ∧ [Instr.mk 'h' 1, Instr.mk '+' 2, Instr.mk '>' 1, Instr.mk '.' 1].length ≤ 65535
      ∧ ∃ m, nsteps [Instr.mk 'h' 1, Instr.mk '+' 2, Instr.mk '>' 1, Instr.mk '.' 1]
            [Instr.mk 'h' 1, Instr.mk '+' 2, Instr.mk '>' 1, Instr.mk '.' 1].length
            Machine.fresh = some m
          ∧ m.inst_ptr = [Instr.mk 'h' 1, Instr.mk '+' 2, Instr.mk '>' 1, Instr.mk '.' 1].length
          ∧ step [Instr.mk 'h' 1, Instr.mk '+' 2, Instr.mk '>' 1, Instr.mk '.' 1] m = none
          ∧ eval [Instr.mk 'h' 1, Instr.mk '+' 2, Instr.mk '>' 1, Instr.mk '.' 1].length
              "h++>.".toList = .ok m :=
  ⟨by decide, by decide, by decide, by decide,
    (no_bracket_run "h++>.".toList (by decide) (by decide)
      [Instr.mk 'h' 1, Instr.mk '+' 2, Instr.mk '>' 1, Instr.mk '.' 1] (by decide)
      (by decide)).2.2⟩

/-! ## An opening bracket that nothing closes -/

theorem scan_runs_out (l : List Char) :
    ∀ (s n : Nat), (∀ B C, l = B ++ ']' :: C → walk B s ≠ some 0) →
      scan_list ']' '[' l ((s : Nat) : Int) n = n + l.length := by
  induction l with
  | nil => intro s n _; rfl
  | cons c l ih =>
    intro s n h
    simp only [List.length_cons]
    by_cases h1 : c = ']'
    · subst h1
      have hs : s ≠ 0 := by
        intro e
        subst e
        exact h [] l rfl rfl
      have hz : ¬ (((s : Nat) : Int) = 0) := by omega
      simp only [scan_list, true_and, hz, if_false, if_true, show ¬ (']' = '[') by decide]
      rw [show ((s : Nat) : Int) - 1 = ((s - 1 : Nat) : Int) by omega]
      rw [ih (s - 1) (n + 1) (fun B C e => by
        have := h (']' :: B) C (by rw [e]; rfl)
        simpa [walk, hs] using this)]
      omega
    · by_cases h2 : c = '['
      · subst h2
        simp only [scan_list, show ¬ ('[' = ']') by decide, false_and, if_false, if_true]
        rw [show ((s : Nat) : Int) + 1 = ((s + 1 : Nat) : Int) by omega]
        rw [ih (s + 1) (n + 1) (fun B C e => by
          have := h ('[' :: B) C (by rw [e]; rfl)
          simpa [walk] using this)]
        omega
      · simp only [scan_list, h1, h2, false_and, if_false]
        rw [ih s (n + 1) (fun B C e => by
          have := h (c :: B) C (by rw [e]; rfl)
          simpa [walk, h1, h2] using this)]
        omega

theorem matched_of_split (A B C : List Char) (hb : walk B 0 = some 0) :
    matched (A ++ '[' :: (B ++ ']' :: C)) A.length (A.length + 1 + B.length) = true := by
  have e : A ++ '[' :: (B ++ ']' :: C) = (A ++ '[' :: B) ++ ']' :: C := by simp
  have l : (A ++ '[' :: B).length = A.length + 1 + B.length := by
    simp only [List.length_append, List.length_cons]; omega
  have h1 : (A ++ '[' :: (B ++ ']' :: C)).get? A.length = some '[' := get_append_mid A '[' _
  have h2 : (A ++ '[' :: (B ++ ']' :: C)).get? (A.length + 1 + B.length) = some ']' := by
    rw [e, ← l]; exact get_append_mid _ ']' _
  have h3 : ((A ++ '[' :: (B ++ ']' :: C)).take (A.length + 1 + B.length)).drop (A.length + 1)
      = B := by
    rw [e, List.take_left' l]
    rw [show A ++ '[' :: B = (A ++ ['[']) ++ B by simp]
    apply List.drop_left'
    simp
  simp only [matched, h1, h2, h3, balanced, hb, beq_self_eq_true, Bool.and_true,
    decide_eq_true_eq]
  omega

theorem matched_beyond (os : List Char) (i j : Nat) (h : os.length ≤ j) :
    matched os i j = false := by
  have hg : os.get? j = none := List.get?_eq_none.2 h
  simp only [matched, hg]
  simp

theorem split_at_get (os : List Char) (i : Nat) (x : Char) (h : os.get? i = some x) :
    os = os.take i ++ x :: os.drop (i + 1) ∧ i < os.length := by
  have hl : i < os.length := by
    by_contra hc
    rw [List.get?_eq_none.2 (by omega)] at h
    cases h
  rw [List.get?_eq_get hl] at h
  simp only [List.get_eq_getElem, Option.some.injEq] at h
  refine ⟨?_, hl⟩
  rw [← h, ← List.drop_eq_getElem_cons hl, List.take_append_drop]

theorem unmatched_scan (os : List Char) (i : Nat) (hi : os.get? i = some '[')
    (hun : ∀ j, matched os i j = false) :
    scan_list ']' '[' (os.drop (i + 1)) 0 0 = os.length - 1 - i := by
  obtain ⟨hsplit, hl⟩ := split_at_get os i '[' hi
  have h := scan_runs_out (os.drop (i + 1)) 0 0 (fun B C e hw => by
    have hm := matched_of_split (os.take i) B C hw
    rw [← e, ← hsplit, List.length_take, Nat.min_eq_left (by omega)] at hm
    rw [hun] at hm
    cases hm)
  simp only [Nat.cast_zero, Nat.zero_add, List.length_drop] at h
  rw [h]
  omega

/-- C15: in a stream of fewer than 65536 instructions, for a `[` at position
`i` that no later `]` matches, the forward scan visits all `n - 1 - i` slots
after it and returns that count; resolution returns unless the stream begins
with `]`, and when it returns the resolved `[` carries `n - 1 - i`, so taking
the jump from position `i` puts the instruction pointer on index `n - 1`, the
last instruction. -/
theorem unmatched_open_jump (v : List Instr) (hn : v.length < 65536) (i : Nat) (x : Instr)
    (hx : v.get? i = some x) (hop : x.op = '[') (hun : ∀ j, matched (ops v) i j = false) :
    linear_scan v (1 + (i : Int)) v.length ']' '[' 1 = .ok (v.length - 1 - i)
      ∧ ((∀ y, v.get? 0 = some y → y.op ≠ ']') → ∃ P, resolve v = .ok P)
      ∧ ∀ P, resolve v = .ok P →
          P.get? i = some (Instr.mk '[' (v.length - 1 - i))
            ∧ ∀ (t : Nat → Nat) (dp : Nat) (o : List Nat), t dp = 0 →
                step P (Machine.mk t dp i o) = some (Machine.mk t dp (v.length - 1) o) := by
  have hil : i < v.length := by
    by_contra hc
    rw [List.get?_eq_none.2 (by omega)] at hx
    cases hx
  have hgi : (ops v).get? i = some '[' := by
    simp only [ops, List.get?_eq_getElem?, List.getElem?_map] at hx ⊢
    rw [hx, Option.map_some', hop]
  have hs := unmatched_scan (ops v) i hgi hun
  rw [ops_length] at hs
  refine ⟨by rw [linear_scan_forward v i hil, hs], ?_, ?_⟩
  · intro h0
    obtain ⟨P, hP, _⟩ := resolve_spec v h0
    exact ⟨P, hP⟩
  intro P hP
  obtain ⟨_, hP3⟩ := resolve_ok_spec v P hP
  have hPi : P.get? i = some (Instr.mk '[' (v.length - 1 - i)) := by
    rw [hP3 i, hx, Option.map_some', jump_arg_open _ _ _ hop, hs, hop,
      Nat.mod_eq_of_lt (by unfold WORD; omega)]
  refine ⟨hPi, ?_⟩
  intro t dp o ht
  rw [step_open_at P i _ hPi, if_pos ht, show i + (v.length - 1 - i) = v.length - 1 by omega,
    Nat.mod_eq_of_lt (by unfold WORD; omega)]

theorem sample_unmatched (j : Nat) :
    matched (ops [Instr.mk '+' 1, Instr.mk '[' 1, Instr.mk '[' 1, Instr.mk '-' 1,
      Instr.mk ']' 1, Instr.mk '.' 2]) 1 j = false := by
  by_cases hj : j < 6
  · have h : ∀ k : Fin 6, matched (ops [Instr.mk '+' 1, Instr.mk '[' 1, Instr.mk '[' 1,
        Instr.mk '-' 1, Instr.mk ']' 1, Instr.mk '.' 2]) 1 k.val = false := by decide
    exact h ⟨j, hj⟩
  · exact matched_beyond _ 1 j (Nat.le_of_not_lt hj)

theorem unmatched_open_jump_witness :
    [Instr.mk '+' 1, Instr.mk '[' 1, Instr.mk '[' 1, Instr.mk '-' 1, Instr.mk ']' 1,
        Instr.mk '.' 2].length < 65536
      ∧ [Instr.mk '+' 1, Instr.mk '[' 1, Instr.mk '[' 1, Instr.mk '-' 1, Instr.mk ']' 1,
        Instr.mk '.' 2].get? 1 = some (Instr.mk '[' 1)
      ∧ (Instr.mk '[' 1).op = '['
      ∧ (∀ j, matched (ops [Instr.mk '+' 1, Instr.mk '[' 1, Instr.mk '[' 1, Instr.mk '-' 1,
          Instr.mk ']' 1, Instr.mk '.' 2]) 1 j = false)
      ∧ linear_scan [Instr.mk '+' 1, Instr.mk '[' 1, Instr.mk '[' 1, Instr.mk '-' 1,
          Instr.mk ']' 1, Instr.mk '.' 2] (1 + ((1 : Nat) : Int))
          [Instr.mk '+' 1, Instr.mk '[' 1, Instr.mk '[' 1, Instr.mk '-' 1, Instr.mk ']' 1,
            Instr.mk '.' 2].length ']' '[' 1
        = .ok ([Instr.mk '+' 1, Instr.mk '[' 1, Instr.mk '[' 1, Instr.mk '-' 1, Instr.mk ']' 1,
            Instr.mk '.' 2].length - 1 - 1)
      ∧ ∀ P, resolve [Instr.mk '+' 1, Instr.mk '[' 1, Instr.mk '[' 1, Instr.mk '-' 1,
            Instr.mk ']' 1, Instr.mk '.' 2] = .ok P →
          P.get? 1 = some (Instr.mk '[' ([Instr.mk '+' 1, Instr.mk '[' 1, Instr.mk '[' 1,
            Instr.mk '-' 1, Instr.mk ']' 1, Instr.mk '.' 2].length - 1 - 1))
            ∧ ∀ (t : Nat → Nat) (dp : Nat) (o : List Nat), t dp = 0 →
                step P (Machine.mk t dp 1 o) = some (Machine.mk t dp
                  ([Instr.mk '+' 1, Instr.mk '[' 1, Instr.mk '[' 1, Instr.mk '-' 1,
                    Instr.mk ']' 1, Instr.mk '.' 2].length - 1) o) :=
  ⟨by decide, by decide, rfl, sample_unmatched,
    (unmatched_open_jump
      [Instr.mk '+' 1, Instr.mk '[' 1, Instr.mk '[' 1, Instr.mk '-' 1, Instr.mk ']' 1,
        Instr.mk '.' 2] (by decide) 1 (Instr.mk '[' 1) (by decide) rfl sample_unmatched).1,
    (unmatched_open_jump
      [Instr.mk '+' 1, Instr.mk '[' 1, Instr.mk '[' 1, Instr.mk '-' 1, Instr.mk ']' 1,
        Instr.mk '.' 2] (by decide) 1 (Instr.mk '[' 1) (by decide) rfl sample_unmatched).2.2⟩

/-! ## The two jumps of a matched pair -/

theorem matched_bounds (os : List Char) (i j : Nat) (h : matched os i j = true) :
    i < j ∧ j < os.length := by
  constructor
  · simp only [matched, Bool.and_eq_true, decide_eq_true_eq] at h
    exact h.1.1.1
  · by_contra hc
    rw [matched_beyond os i j (by omega)] at h
    cases h

/-- C11, with the length of the reduced stream bounded: for a non-empty source
with balanced brackets whose reduced stream has fewer than 65536 instructions
and every matched pair `[` at `i`, `]` at `j`, a state at `i` with current cell
0 steps to `j` and then to `j + 1`, and a state at `j` with a non-zero current
cell steps to `i` and then to `i + 1`, the tape, the data pointer and the output
staying as they were. -/
theorem jump_round_trip (s : List Char) (hs : s ≠ []) (hb : balanced s = true)
    (R : List Instr) (hR : reduce_rle (parse s) = .ok R) (hlen : R.length < 65536) :
    ∃ P, resolve R = .ok P ∧ ∀ i j, matched (ops R) i j = true →
      ∀ (t : Nat → Nat) (dp : Nat) (o : List Nat),
        (t dp = 0 → step P (Machine.mk t dp i o) = some (Machine.mk t dp j o)
            ∧ step P (Machine.mk t dp j o) = some (Machine.mk t dp (j + 1) o))
          ∧ (t dp ≠ 0 → step P (Machine.mk t dp j o) = some (Machine.mk t dp i o)
            ∧ step P (Machine.mk t dp i o) = some (Machine.mk t dp (i + 1) o)) := by
  obtain ⟨P, hP, hpairs⟩ := matched_jumps s hs hb R hR hlen
  refine ⟨P, hP, ?_⟩
  intro i j hm t dp o
  obtain ⟨hi, hj⟩ := hpairs i j hm
  obtain ⟨hij, hjl⟩ := matched_bounds (ops R) i j hm
  rw [ops_length] at hjl
  have e1 : (i + (j - i)) % WORD = j := by
    rw [show i + (j - i) = j by omega, Nat.mod_eq_of_lt (by unfold WORD; omega)]
  have e2 : (j + 1) % WORD = j + 1 := Nat.mod_eq_of_lt (by unfold WORD; omega)
  have e3 : (i + 1) % WORD = i + 1 := Nat.mod_eq_of_lt (by unfold WORD; omega)
  have e4 : (j + WORD - (j - i) % WORD) % WORD = i := by
    rw [Nat.mod_eq_of_lt (show j - i < WORD by unfold WORD; omega),
      show j + WORD - (j - i) = i + WORD by omega, Nat.add_mod_right,
      Nat.mod_eq_of_lt (by unfold WORD; omega)]
  constructor
  · intro h0
    constructor
    · rw [step_open_at P i _ hi, if_pos h0, e1]
    · rw [step_close_at P j _ hj, if_neg (not_not.2 h0), e2]
  · intro h1
    constructor
    · rw [step_close_at P j _ hj, if_pos h1, e4]
    · rw [step_open_at P i _ hi, if_neg h1, e3]

theorem jump_round_trip_witness :
    "+[>[-]<-]".toList ≠ [] ∧ balanced "+[>[-]<-]".toList = true
      ∧ reduce_rle (parse "+[>[-]<-]".toList)
          = .ok [Instr.mk '+' 1, Instr.mk '[' 1, Instr.mk '>' 1, Instr.mk '[' 1, Instr.mk '-' 1,
              Instr.mk ']' 1, Instr.mk '<' 1, Instr.mk '-' 1, Instr.mk ']' 1]
      ∧ [Instr.mk '+' 1, Instr.mk '[' 1, Instr.mk '>' 1, Instr.mk '[' 1, Instr.mk '-' 1,
              Instr.mk ']' 1, Instr.mk '<' 1, Instr.mk '-' 1, Instr.mk ']' 1].length < 65536
      ∧ ∃ P, resolve [Instr.mk '+' 1, Instr.mk '[' 1, Instr.mk '>' 1, Instr.mk '[' 1,
              Instr.mk '-' 1, Instr.mk ']' 1, Instr.mk '<' 1, Instr.mk '-' 1, Instr.mk ']' 1]
            = .ok P
          ∧ ∀ i j, matched (ops [Instr.mk '+' 1, Instr.mk '[' 1, Instr.mk '>' 1, Instr.mk '[' 1,
              Instr.mk '-' 1, Instr.mk ']' 1, Instr.mk '<' 1, Instr.mk '-' 1, Instr.mk ']' 1])
              i j = true →
            ∀ (t : Nat → Nat) (dp : Nat) (o : List Nat),
              (t dp = 0 → step P (Machine.mk t dp i o) = some (Machine.mk t dp j o)
                  ∧ step P (Machine.mk t dp j o) = some (Machine.mk t dp (j + 1) o))
                ∧ (t dp ≠ 0 → step P (Machine.mk t dp j o) = some (Machine.mk t dp i o)
                  ∧ step P (Machine.mk t dp i o) = some (Machine.mk t dp (i + 1) o)) :=
  ⟨by decide, by decide, by decide, by decide,
    jump_round_trip "+[>[-]<-]".toList (by decide) (by decide) _ (by decide) (by decide)⟩

/-! ## A source that begins with an opening bracket -/

theorem jump_arg_op (os : List Char) (p : Nat) (i : Instr) : (jump_arg os p i).op = i.op := by
  simp only [jump_arg]
  split_ifs <;> rfl

theorem get_concat (a : List Instr) (x : Instr) : (a ++ [x]).get? a.length = some x := by
  induction a with
  | nil => rfl
  | cons b a ih => simp

theorem exec_on_zero (i : Instr) (dp ip : Nat) (h : i.op ≠ '[') :
    (exec_instr i (Machine.mk (fun _ => 0) dp ip [])).inst_ptr = (ip + 1) % WORD
      ∧ ∀ b ∈ (exec_instr i (Machine.mk (fun _ => 0) dp ip [])).out, b = 0 := by
  simp only [exec_instr, if_neg h]
  split_ifs with h1 h2 h3 h4 h5 h6 h7
  all_goals first
    | exact absurd rfl h7
    | simp

theorem exec_close_zero (k dp ip : Nat) :
    exec_instr (Instr.mk ']' k) (Machine.mk (fun _ => 0) dp ip [])
      = Machine.mk (fun _ => 0) dp ((ip + 1) % WORD) [] := by
  rw [exec_close]
  simp

theorem rle_from_snoc_bracket (c : Char) (hc : c = '[' ∨ c = ']') (l : List Char) :
    ∀ top : Instr, rle_from top (parse (l ++ [c])) = rle_from top (parse l) ++ [Instr.mk c 1] := by
  induction l with
  | nil =>
    intro top
    have hn : ¬ (c = top.op ∧ c ≠ '[' ∧ c ≠ ']') := by
      rintro ⟨_, n1, n2⟩
      rcases hc with h | h
      · exact n1 h
      · exact n2 h
    simp only [List.nil_append, parse, List.map_cons, List.map_nil, rle_from, hn, if_false,
      recognised_bracket c hc, if_true, List.singleton_append]
  | cons d l ih =>
    intro top
    rw [List.cons_append, parse_cons, parse_cons, rle_from_cons, rle_from_cons]
    split_ifs
    · exact ih _
    · rw [ih _]; rfl
    · exact ih _

theorem open_first (rest : List Char) (hw : walk ('[' :: rest) 0 = some 0) (R : List Instr)
    (hR : reduce_rle (parse ('[' :: rest)) = .ok R) (hn : R.length < WORD) :
    ∃ P, R = Instr.mk '[' 0 :: rle_from (Instr.mk '[' 1) (parse rest)
      ∧ walk (ops (rle_from (Instr.mk '[' 1) (parse rest))) 0 = some 0
      ∧ resolve R = .ok P
      ∧ (∀ p, P.get? p = (R.get? p).map (jump_arg (ops R) p))
      ∧ step P Machine.fresh = some (Machine.mk (fun _ => 0) 0 (R.length - 1) []) := by
  rw [parse_cons, reduce_rle_cons] at hR
  have hunf : rle_from (Instr.mk '[' 0) (Instr.mk '[' 1 :: parse rest)
      = Instr.mk '[' 0 :: rle_from (Instr.mk '[' 1) (parse rest) := by
    simp [rle_from, recognised]
  rw [hunf] at hR
  injection hR with hR
  have hwt := walk_rle_from rest (Instr.mk '[' 1) 0
  rw [show (Instr.mk '[' 1).op = '[' from rfl, hw] at hwt
  have hg0 : R.get? 0 = some (Instr.mk '[' 0) := by rw [← hR]; rfl
  have hun : ∀ j, matched (ops R) 0 j = false := by
    intro j
    cases hm : matched (ops R) 0 j with
    | false => rfl
    | true =>
      exfalso
      obtain ⟨A, B, C, hsplit, hA, _, hwB⟩ := matched_split (ops R) 0 j hm
      have hA0 : A = [] := List.length_eq_zero.1 hA
      subst hA0
      rw [← hR, ops_cons] at hsplit
      simp only [List.nil_append, List.cons.injEq, true_and] at hsplit
      rw [hsplit, walk_balanced_then_close B C hwB] at hwt
      cases hwt
  obtain ⟨P, hP1, _, hP3⟩ := resolve_spec R (fun i hi => by
    rw [hg0] at hi
    injection hi with hi
    rw [← hi]
    decide)
  have hgo : (ops R).get? 0 = some '[' := by rw [← hR]; rfl
  have hs := unmatched_scan (ops R) 0 hgo hun
  rw [ops_length] at hs
  have hP0 : P.get? 0 = some (Instr.mk '[' (R.length - 1)) := by
    rw [hP3 0, hg0, Option.map_some', jump_arg_open _ _ _ rfl, hs,
      Nat.mod_eq_of_lt (by omega)]
    rfl
  refine ⟨P, hR.symm, hwt, hP1, hP3, ?_⟩
  have hst := step_open_at P 0 _ hP0 (fun _ => 0) 0 []
  simp only [if_true, Nat.zero_add] at hst
  rw [Nat.mod_eq_of_lt (by omega)] at hst
  exact hst

theorem walk_snoc_open (a : List Char) (d : Nat) : walk (a ++ ['[']) d ≠ some 0 := by
  rw [walk_snoc]
  cases walk a d with
  | none => simp
  | some x => simp [walk]

theorem two_steps_then_stop (P : List Instr) (m0 m1 m2 : Machine) (h1 : step P m0 = some m1)
    (h2 : step P m1 = some m2) (h3 : step P m2 = none) :
    nsteps P 2 m0 = some m2 ∧ run P 2 m0 = .ok m2 := by
  constructor
  · simp [nsteps, h1, h2]
  · rw [run_step 1 h1, run_step 0 h2]
    simp [run, h3]

/-- C18: for a source with balanced brackets whose first character is `[` and
whose reduced stream has fewer than 65536 instructions, the first turn of the
execution loop jumps from position 0 to the last instruction of the stream,
the second executes that instruction, and the loop then ends: exactly two
turns, with every byte written equal to zero. -/
theorem open_first_two_steps (s : List Char) (hfirst : s.head? = some '[')
    (hb : balanced s = true) (R : List Instr) (hR : reduce_rle (parse s) = .ok R)
    (hn : R.length < 65536) :
    ∃ P last m, resolve R = .ok P
      ∧ step P Machine.fresh = some (Machine.mk (fun _ => 0) 0 (R.length - 1) [])
      ∧ 0 < R.length - 1
      ∧ P.get? (R.length - 1) = some last
      ∧ m = exec_instr last (Machine.mk (fun _ => 0) 0 (R.length - 1) [])
      ∧ nsteps P 2 Machine.fresh = some m ∧ step P m = none ∧ m.inst_ptr = R.length
      ∧ eval 2 s = .ok m ∧ ∀ b ∈ m.out, b = 0 := by
  obtain ⟨rest, rfl⟩ : ∃ rest, s = '[' :: rest := by
    cases s with
    | nil => cases hfirst
    | cons c rest =>
      simp only [List.head?_cons, Option.some.injEq] at hfirst
      exact ⟨rest, by rw [hfirst]⟩
  have hw : walk ('[' :: rest) 0 = some 0 := by simpa [balanced] using hb
  obtain ⟨P, hRT, hwT, hP1, hP3, hst1⟩ := open_first rest hw R hR hn
  obtain ⟨T', x, hT⟩ : ∃ T' x, rle_from (Instr.mk '[' 1) (parse rest) = T' ++ [x] := by
    obtain ⟨k, t, hkt⟩ := rle_from_head (parse rest) (Instr.mk '[' 1)
    rcases List.eq_nil_or_concat (rle_from (Instr.mk '[' 1) (parse rest)) with h | ⟨a, b, h⟩
    · rw [hkt] at h; cases h
    · exact ⟨a, b, by rw [h]; simp⟩
  have hx : x.op ≠ '[' := by
    intro e
    rw [hT, ops_append, ops_cons, e] at hwT
    exact walk_snoc_open _ 0 hwT
  have hlen : R.length - 1 = (Instr.mk '[' 0 :: T').length := by
    rw [hRT, hT]; simp
  have hgx : R.get? (R.length - 1) = some x := by
    rw [hlen]
    conv_lhs => rw [hRT, hT, ← List.cons_append]
    exact get_concat _ x
  have hlast : P.get? (R.length - 1) = some (jump_arg (ops R) (R.length - 1) x) := by
    rw [hP3, hgx, Option.map_some']
  have hlo : (jump_arg (ops R) (R.length - 1) x).op ≠ '[' := by
    rw [jump_arg_op]; exact hx
  have hpos : 0 < R.length - 1 := by rw [hlen]; simp
  obtain ⟨hip, hout⟩ := exec_on_zero _ 0 (R.length - 1) hlo
  rw [show R.length - 1 + 1 = R.length by omega, Nat.mod_eq_of_lt (by unfold WORD; omega)] at hip
  have hst2 : step P (Machine.mk (fun _ => 0) 0 (R.length - 1) [])
      = some (exec_instr (jump_arg (ops R) (R.length - 1) x)
          (Machine.mk (fun _ => 0) 0 (R.length - 1) [])) := by
    simp only [step, hlast]
  have hst3 : step P (exec_instr (jump_arg (ops R) (R.length - 1) x)
      (Machine.mk (fun _ => 0) 0 (R.length - 1) [])) = none := by
    simp only [step, hip, hP3, List.get?_eq_none.2 (Nat.le_refl _), Option.map_none']
  obtain ⟨hns, hrun⟩ := two_steps_then_stop P _ _ _ hst1 hst2 hst3
  refine ⟨P, _, _, hP1, hst1, hpos, hlast, rfl, hns, hst3, hip, ?_, hout⟩
  simp only [eval, hR, exec_stream, hP1]
  exact hrun

theorem open_first_two_steps_witness :
    "[+]>..".toList.head? = some '[' ∧ balanced "[+]>..".toList = true
      ∧ reduce_rle (parse "[+]>..".toList)
          = .ok [Instr.mk '[' 0, Instr.mk '[' 1, Instr.mk '+' 1, Instr.mk ']' 1, Instr.mk '>' 1,
              Instr.mk '.' 2]
      ∧ [Instr.mk '[' 0, Instr.mk '[' 1, Instr.mk '+' 1, Instr.mk ']' 1, Instr.mk '>' 1,
              Instr.mk '.' 2].length < 65536
      ∧ ∃ P last m, resolve [Instr.mk '[' 0, Instr.mk '[' 1, Instr.mk '+' 1, Instr.mk ']' 1,
              Instr.mk '>' 1, Instr.mk '.' 2] = .ok P
          ∧ step P Machine.fresh = some (Machine.mk (fun _ => 0) 0
              ([Instr.mk '[' 0, Instr.mk '[' 1, Instr.mk '+' 1, Instr.mk ']' 1, Instr.mk '>' 1,
              Instr.mk '.' 2].length - 1) [])
          ∧ 0 < [Instr.mk '[' 0, Instr.mk '[' 1, Instr.mk '+' 1, Instr.mk ']' 1, Instr.mk '>' 1,
              Instr.mk '.' 2].length - 1
          ∧ P.get? ([Instr.mk '[' 0, Instr.mk '[' 1, Instr.mk '+' 1, Instr.mk ']' 1,
              Instr.mk '>' 1, Instr.mk '.' 2].length - 1) = some last
          ∧ m = exec_instr last (Machine.mk (fun _ => 0) 0 ([Instr.mk '[' 0, Instr.mk '[' 1,
              Instr.mk '+' 1, Instr.mk ']' 1, Instr.mk '>' 1, Instr.mk '.' 2].length - 1) [])
          ∧ nsteps P 2 Machine.fresh = some m ∧ step P m = none
          ∧ m.inst_ptr = [Instr.mk '[' 0, Instr.mk '[' 1, Instr.mk '+' 1, Instr.mk ']' 1,
              Instr.mk '>' 1, Instr.mk '.' 2].length
          ∧ eval 2 "[+]>..".toList = .ok m ∧ ∀ b ∈ m.out, b = 0 :=
  ⟨by decide, by decide, by decide, by decide,
    open_first_two_steps "[+]>..".toList (by decide) (by decide) _ (by decide) (by decide)⟩

/-! ## Deep nesting: streams of 65536 instructions and more -/

theorem walk_shift (l : List Char) :
    ∀ (d e k : Nat), walk l d = some e → walk l (d + k) = some (e + k) := by
  induction l with
  | nil =>
    intro d e k h
    simp only [walk, Option.some.injEq] at h ⊢
    omega
  | cons c l ih =>
    intro d e k h
    by_cases h1 : c = '['
    · subst h1
      simp only [walk, if_true] at h ⊢
      rw [show d + k + 1 = d + 1 + k by omega]
      exact ih _ _ _ h
    · by_cases h2 : c = ']'
      · subst h2
        simp only [walk, show ¬ (']' = '[') by decide, if_false, if_true] at h ⊢
        by_cases hd : d = 0
        · simp [hd] at h
        · simp only [hd, if_false] at h
          simp only [show ¬ (d + k = 0) by omega, if_false]
          rw [show d + k - 1 = d - 1 + k by omega]
          exact ih _ _ _ h
      · rw [walk_cons_other c l _ h1 h2] at h ⊢
        exact ih _ _ _ h

theorem walk_opens (n : Nat) (l : List Char) :
    ∀ d, walk (List.replicate n '[' ++ l) d = walk l (d + n) := by
  induction n with
  | zero => intro d; rfl
  | succ n ih =>
    intro d
    rw [List.replicate_succ, List.cons_append]
    simp only [walk, if_true]
    rw [ih, show d + 1 + n = d + (n + 1) by omega]

theorem walk_closes (n : Nat) (l : List Char) :
    ∀ d, walk (List.replicate n ']' ++ l) (d + n) = walk l d := by
  induction n with
  | zero => intro d; rfl
  | succ n ih =>
    intro d
    rw [List.replicate_succ, List.cons_append]
    simp only [walk, show ¬ (']' = '[') by decide, if_false, if_true,
      show ¬ (d + (n + 1) = 0) by omega]
    rw [show d + (n + 1) - 1 = d + n by omega, ih]

theorem balanced_nested (n : Nat) : balanced (nested n) = true := by
  have h := walk_opens n (List.replicate n ']') 0
  have h2 := walk_closes n [] 0
  rw [List.append_nil] at h2
  rw [h2] at h
  simp only [balanced, nested, h]
  rfl

theorem nested_brackets (n : Nat) : ∀ c ∈ nested n, c = '[' ∨ c = ']' := by
  intro c hc
  simp only [nested, List.mem_append, List.mem_replicate] at hc
  rcases hc with h | h
  · exact Or.inl h.2
  · exact Or.inr h.2

theorem rle_from_brackets (l : List Char) (hall : ∀ c ∈ l, c = '[' ∨ c = ']') :
    ∀ top : Instr, rle_from top (parse l) = top :: parse l := by
  induction l with
  | nil => intro top; rfl
  | cons c l ih =>
    intro top
    have hc := hall c (List.mem_cons_self _ _)
    have hn : ¬ (c = top.op ∧ c ≠ '[' ∧ c ≠ ']') := by
      rintro ⟨_, n1, n2⟩
      rcases hc with h | h
      · exact n1 h
      · exact n2 h
    rw [parse_cons, rle_from_cons]
    simp only [hn, if_false, recognised_bracket c hc, if_true]
    rw [ih (fun d hd => hall d (List.mem_cons_of_mem _ hd))]

theorem reduced_brackets (c0 : Char) (rest : List Char)
    (hall : ∀ c ∈ c0 :: rest, c = '[' ∨ c = ']') :
    reduce_rle (parse (c0 :: rest)) = .ok (Instr.mk c0 0 :: parse (c0 :: rest)) := by
  rw [parse_cons, reduce_rle_cons, ← parse_cons, rle_from_brackets (c0 :: rest) hall]

theorem ops_parse (l : List Char) : ops (parse l) = l := by
  induction l with
  | nil => rfl
  | cons c l ih => rw [parse_cons, ops_cons, ih]

theorem bracket_source_never_ends (rest : List Char)
    (hall : ∀ c ∈ '[' :: rest, c = '[' ∨ c = ']') (hlen : WORD ≤ rest.length + 2) (fuel : Nat) :
    eval fuel ('[' :: rest) = .error .no_fuel := by
  have hR := reduced_brackets '[' rest hall
  obtain ⟨P, hP1, hP2, _⟩ := resolve_spec (Instr.mk '[' 0 :: parse ('[' :: rest)) (fun i hi => by
    simp only [List.get?_cons_zero, Option.some.injEq] at hi
    rw [← hi]
    decide)
  have hPl : WORD ≤ P.length := by
    rw [← ops_length P, hP2, ops_length]
    simp only [List.length_cons, parse, List.length_map]
    omega
  simp only [eval, hR, exec_stream, hP1]
  exact run_never_ends P hPl fuel Machine.fresh (by decide)

theorem long_loop_never_ends (n : Nat) (hn : WORD ≤ 2 * n + 3) (fuel : Nat) :
    eval fuel ('[' :: nested n ++ [']']) = .error .no_fuel := by
  have hall : ∀ c ∈ '[' :: (nested n ++ [']']), c = '[' ∨ c = ']' := by
    intro c hc
    simp only [List.mem_cons, List.mem_append, List.mem_singleton, List.not_mem_nil,
      or_false] at hc
    rcases hc with h | h | h
    · exact Or.inl h
    · exact nested_brackets n c h
    · exact Or.inr h
  have hlen : WORD ≤ (nested n ++ [']']).length + 2 := by
    simp only [nested, List.length_append, List.length_replicate, List.length_cons,
      List.length_nil]
    omega
  exact bracket_source_never_ends (nested n ++ [']']) hall hlen fuel

theorem nsteps_last (P : List Instr) :
    ∀ (k : Nat) (m m2 : Machine), nsteps P (k + 1) m = some m2 →
      ∃ m1, nsteps P k m = some m1 ∧ step P m1 = some m2 := by
  intro k
  induction k with
  | zero =>
    intro m m2 h
    simp only [nsteps] at h
    cases hs : step P m with
    | none => rw [hs] at h; cases h
    | some m1 =>
      rw [hs] at h
      simp only [Option.some.injEq] at h
      exact ⟨m, rfl, by rw [hs, h]⟩
  | succ k ih =>
    intro m m2 h
    cases hs : step P m with
    | none => simp [nsteps, hs] at h
    | some m3 =>
      rw [nsteps_succ P (k + 1) m m3 hs] at h
      obtain ⟨m1, h1, h2⟩ := ih m3 m2 h
      exact ⟨m1, by rw [nsteps_succ P k m m3 hs]; exact h1, h2⟩

theorem ip_after_steps (P : List Instr) (k : Nat) (m m2 : Machine)
    (h : nsteps P (k + 1) m = some m2) : m2.inst_ptr < WORD := by
  obtain ⟨m1, _, h2⟩ := nsteps_last P k m m2 h
  simp only [step] at h2
  cases hg : P.get? m1.inst_ptr with
  | none => rw [hg] at h2; cases h2
  | some i =>
    rw [hg] at h2
    simp only [Option.some.injEq] at h2
    rw [← h2]
    exact exec_ip_lt _ _

theorem nested_wrap (n : Nat) (hn : n + 3 = WORD) :
    ∃ R P, reduce_rle (parse (nested (n + 1))) = .ok R ∧ resolve R = .ok P
      ∧ matched (ops R) (n + 1) (n + 2) = true
      ∧ ∀ (t : Nat → Nat) (dp : Nat) (o : List Nat), t dp = 0 →
          step P (Machine.mk t dp (n + 1) o) = some (Machine.mk t dp (n + 2) o)
            ∧ step P (Machine.mk t dp (n + 2) o) = some (Machine.mk t dp 0 o) := by
  have hnest : nested (n + 1) = '[' :: (List.replicate n '[' ++ List.replicate (n + 1) ']') := by
    simp only [nested, List.replicate_succ, List.cons_append]
  have hR : reduce_rle (parse (nested (n + 1)))
      = .ok (Instr.mk '[' 0 :: parse (nested (n + 1))) := by
    have hall := nested_brackets (n + 1)
    rw [hnest] at hall ⊢
    exact reduced_brackets '[' _ hall
  have hops : ops (Instr.mk '[' 0 :: parse (nested (n + 1)))
      = ('[' :: List.replicate n '[') ++ '[' :: ([] ++ ']' :: List.replicate n ']') := by
    rw [ops_cons, ops_parse]
    simp only [nested, List.nil_append]
    rw [List.replicate_succ' n '[', List.replicate_succ ']' n]
    simp
  obtain ⟨P, hP1, _, hP3⟩ := resolve_spec (Instr.mk '[' 0 :: parse (nested (n + 1)))
    (fun i hi => by
      simp only [List.get?_cons_zero, Option.some.injEq] at hi
      rw [← hi]
      decide)
  have hlenA : ('[' :: List.replicate n '[').length = n + 1 := by simp
  have hm := matched_of_split ('[' :: List.replicate n '[') [] (List.replicate n ']') rfl
  rw [← hops, hlenA] at hm
  simp only [List.length_nil, Nat.add_zero] at hm
  have hgi : (ops (Instr.mk '[' 0 :: parse (nested (n + 1)))).get? (n + 1) = some '[' := by
    rw [hops, ← hlenA]; exact get_append_mid _ '[' _
  have hgj : (ops (Instr.mk '[' 0 :: parse (nested (n + 1)))).get? (n + 2) = some ']' := by
    have e : ('[' :: List.replicate n '[') ++ '[' :: ([] ++ ']' :: List.replicate n ']')
        = ('[' :: List.replicate n '[' ++ ['[']) ++ ']' :: List.replicate n ']' := by simp
    have l : ('[' :: List.replicate n '[' ++ ['[']).length = n + 2 := by simp
    rw [hops, e, ← l]; exact get_append_mid _ ']' _
  obtain ⟨x, hx1, hx2⟩ := ops_get _ _ _ hgi
  obtain ⟨y, hy1, hy2⟩ := ops_get _ _ _ hgj
  have hPi : P.get? (n + 1) = some (Instr.mk '[' 1) := by
    rw [hP3, hx1, Option.map_some', hops]
    conv_lhs => rw [← hlenA]
    rw [jump_open ('[' :: List.replicate n '[') [] (List.replicate n ']') x hx2 rfl, hx2]
    rfl
  have hPj : P.get? (n + 2) = some (Instr.mk ']' 1) := by
    rw [hP3, hy1, Option.map_some', hops]
    have hpos : n + 2 = (List.replicate n '[').length + 1 + 1 + ([] : List Char).length := by
      simp
    conv_lhs => rw [hpos]
    rw [jump_close '[' (List.replicate n '[') [] (List.replicate n ']') y hy2 rfl, hy2]
    rfl
  refine ⟨_, P, hR, hP1, hm, ?_⟩
  intro t dp o ht
  constructor
  · rw [step_open_at P (n + 1) 1 hPi, if_pos ht, Nat.mod_eq_of_lt (by omega)]
  · rw [step_close_at P (n + 2) 1 hPj, if_neg (not_not.2 ht),
      show n + 2 + 1 = WORD by omega, Nat.mod_self]

/-- C11 fails for a long source: in the reduced stream of 65534 opening
brackets followed by 65534 closing brackets, the `[` at position 65534 and the
`]` at position 65535 match, and a state at 65534 with current cell 0 steps to
65535 and then to position 0; no turn of the loop ever leaves the instruction
pointer at 65536. -/
theorem jump_round_trip_wraps :
    nested 65534 ≠ [] ∧ balanced (nested 65534) = true
      ∧ ∃ R P, reduce_rle (parse (nested 65534)) = .ok R ∧ resolve R = .ok P
        ∧ matched (ops R) 65534 65535 = true
        ∧ step P (Machine.mk (fun _ => 0) 0 65534 [])
            = some (Machine.mk (fun _ => 0) 0 65535 [])
        ∧ step P (Machine.mk (fun _ => 0) 0 65535 []) = some (Machine.mk (fun _ => 0) 0 0 [])
        ∧ ∀ (k : Nat) (m m2 : Machine), nsteps P (k + 1) m = some m2 →
            m2.inst_ptr ≠ 65535 + 1 := by
  refine ⟨?_, balanced_nested 65534, ?_⟩
  · intro h
    have hl := congrArg List.length h
    simp only [nested, List.length_append, List.length_replicate, List.length_nil] at hl
    omega
  · obtain ⟨R, P, h1, h2, h3, h4⟩ := nested_wrap 65533 (by decide)
    obtain ⟨h5, h6⟩ := h4 (fun _ => 0) 0 [] rfl
    refine ⟨R, P, h1, h2, h3, h5, h6, ?_⟩
    intro k m m2 h
    have := ip_after_steps P k m m2 h
    unfold WORD at this
    omega

/-- C12 fails for a long body: with the balanced body of 32767 opening
brackets followed by 32767 closing brackets, the reduced stream of `[` B `]`
has 65537 instructions and execution never terminates. -/
theorem empty_loop_long_body :
    balanced (nested 32767) = true
      ∧ ∀ fuel, eval fuel ('[' :: nested 32767 ++ [']']) = .error .no_fuel :=
  ⟨balanced_nested 32767, fun fuel => long_loop_never_ends 32767 (by decide) fuel⟩

/-- C12, with the length of the reduced stream bounded: for a body `B` with
balanced brackets such that the reduced stream of `[` B `]` has fewer than
65536 instructions, execution on a fresh tape jumps from position 0 to the
final `]`, passes it and ends after these two turns, with no output and the
tape all zero; no instruction of the body is executed. -/
theorem empty_loop_skipped (B : List Char) (hb : balanced B = true) (R : List Instr)
    (hR : reduce_rle (parse ('[' :: B ++ [']'])) = .ok R) (hn : R.length < 65536) :
    ∃ P k, resolve R = .ok P
      ∧ step P Machine.fresh = some (Machine.mk (fun _ => 0) 0 (R.length - 1) [])
      ∧ P.get? (R.length - 1) = some (Instr.mk ']' k)
      ∧ step P (Machine.mk (fun _ => 0) 0 (R.length - 1) [])
          = some (Machine.mk (fun _ => 0) 0 R.length [])
      ∧ step P (Machine.mk (fun _ => 0) 0 R.length []) = none
      ∧ eval 2 ('[' :: B ++ [']']) = .ok (Machine.mk (fun _ => 0) 0 R.length []) := by
  have hwB : walk B 0 = some 0 := by simpa [balanced] using hb
  have hw : walk ('[' :: (B ++ [']'])) 0 = some 0 := by
    have h1 := walk_shift B 0 0 1 hwB
    simp only [walk, if_true, Nat.zero_add]
    rw [walk_snoc, h1]
    rfl
  rw [List.cons_append] at hR
  obtain ⟨P, hRT, _, hP1, hP3, hst1⟩ := open_first (B ++ [']']) hw R hR hn
  rw [rle_from_snoc_bracket ']' (Or.inr rfl) B] at hRT
  have hlen : R.length - 1 = (Instr.mk '[' 0 :: rle_from (Instr.mk '[' 1) (parse B)).length := by
    rw [hRT]; simp
  have hgx : R.get? (R.length - 1) = some (Instr.mk ']' 1) := by
    rw [hlen]
    conv_lhs => rw [hRT, ← List.cons_append]
    exact get_concat _ _
  have hlast : P.get? (R.length - 1)
      = some (Instr.mk ']' (jump_arg (ops R) (R.length - 1) (Instr.mk ']' 1)).arg) := by
    rw [hP3, hgx, Option.map_some']
    have e : jump_arg (ops R) (R.length - 1) (Instr.mk ']' 1)
        = Instr.mk (jump_arg (ops R) (R.length - 1) (Instr.mk ']' 1)).op
            (jump_arg (ops R) (R.length - 1) (Instr.mk ']' 1)).arg := rfl
    rw [jump_arg_op] at e
    exact congrArg some e
  have hpos : 0 < R.length - 1 := by rw [hlen]; simp
  have hst2 : step P (Machine.mk (fun _ => 0) 0 (R.length - 1) [])
      = some (Machine.mk (fun _ => 0) 0 R.length []) := by
    simp only [step, hlast, exec_close_zero]
    rw [show R.length - 1 + 1 = R.length by omega, Nat.mod_eq_of_lt (by unfold WORD; omega)]
  have hst3 : step P (Machine.mk (fun _ => 0) 0 R.length []) = none := by
    simp only [step, hP3, List.get?_eq_none.2 (Nat.le_refl _), Option.map_none']
  obtain ⟨_, hrun⟩ := two_steps_then_stop P _ _ _ hst1 hst2 hst3
  refine ⟨P, _, hP1, hst1, hlast, hst2, hst3, ?_⟩
  simp only [eval, List.cons_append, hR, exec_stream, hP1]
  exact hrun

theorem empty_loop_skipped_witness :
    balanced "-".toList = true
      ∧ reduce_rle (parse ('[' :: "-".toList ++ [']']))
          = .ok [Instr.mk '[' 0, Instr.mk '[' 1, Instr.mk '-' 1, Instr.mk ']' 1]
      ∧ [Instr.mk '[' 0, Instr.mk '[' 1, Instr.mk '-' 1, Instr.mk ']' 1].length < 65536
      ∧ ∃ P k, resolve [Instr.mk '[' 0, Instr.mk '[' 1, Instr.mk '-' 1, Instr.mk ']' 1] = .ok P
        ∧ step P Machine.fresh = some (Machine.mk (fun _ => 0) 0
            ([Instr.mk '[' 0, Instr.mk '[' 1, Instr.mk '-' 1, Instr.mk ']' 1].length - 1) [])
        ∧ P.get? ([Instr.mk '[' 0, Instr.mk '[' 1, Instr.mk '-' 1, Instr.mk ']' 1].length - 1)
            = some (Instr.mk ']' k)
        ∧ step P (Machine.mk (fun _ => 0) 0
            ([Instr.mk '[' 0, Instr.mk '[' 1, Instr.mk '-' 1, Instr.mk ']' 1].length - 1) [])
            = some (Machine.mk (fun _ => 0) 0
                [Instr.mk '[' 0, Instr.mk '[' 1, Instr.mk '-' 1, Instr.mk ']' 1].length [])
        ∧ step P (Machine.mk (fun _ => 0) 0
            [Instr.mk '[' 0, Instr.mk '[' 1, Instr.mk '-' 1, Instr.mk ']' 1].length []) = none
        ∧ eval 2 ('[' :: "-".toList ++ [']']) = .ok (Machine.mk (fun _ => 0) 0
            [Instr.mk '[' 0, Instr.mk '[' 1, Instr.mk '-' 1, Instr.mk ']' 1].length []) :=
  ⟨by decide, by decide, by decide,
    empty_loop_skipped "-".toList (by decide) _ (by decide) (by decide)⟩

end Tri
